import Mathlib

/-!
# Verification of the master-slave ESLint orchestrator

Shallow embedding of the master orchestrator (`src/master-slave/src/master.ts`),
the worker driver (`worker.ts`, shipped inside `src/demo_ts/src/tools/eslinst_dump.ts`),
and the memory profiler (`src/demo_ts/src/tools/mem-profiler.ts`).

JavaScript numbers are embedded as `Nat` (all the quantities involved are
non-negative counters, lengths and byte counts); process exit codes are
`Option Int` (`none` embeds JavaScript `null`, the exit code of a signalled
process).  Stateful handlers are embedded as explicit state-passing functions
over a `MasterState` record, and a run of the orchestrator is a fold of an
event list (inbound IPC messages, child-exit notifications, spawn-loop
activations) over the state.
-/

namespace ESLintPoC

/-- `CONFIG` from `master.ts` (lines 90-96). -/
structure Config where
  maxWorkers : Nat := 2
  maxRetries : Nat := 2
  memoryThresholdPercent : Nat := 75
  containerLimitMB : Nat := 4096
  initialBatchDivisor : Nat := 4
deriving DecidableEq, Repr

/-- The default configuration of `master.ts`. -/
def CONFIG : Config := {}

/-- The four failure kinds of the error taxonomy. -/
inductive ErrorType
  | oom
  | parse_error
  | rule_crash
  | unknown
deriving DecidableEq, Repr

/-- `Batch` from `types.ts`. -/
structure Batch where
  id : Nat
  files : List String
  retries : Nat
deriving DecidableEq, Repr

/-- `FailedFile` from `types.ts`. -/
structure FailedFile where
  file : String
  reason : ErrorType
  message : String
deriving DecidableEq, Repr

/-- `MemorySample` from `types.ts` (the `memory` IPC message payload). -/
structure MemorySample where
  workerId : Nat
  rss : Nat
  heapUsed : Nat
  timestamp : Nat
deriving DecidableEq, Repr

/-- One per-file ESLint result record.  The core reads only the two aggregate
counters; the file path it names is kept because the conservation property is
stated in terms of which files appear in the persisted results. -/
structure LintRes where
  filePath : String
  errorCount : Nat
  warningCount : Nat
deriving DecidableEq, Repr

/-- `WorkerState` from `types.ts` (pid and startTime are irrelevant to every
claim and are omitted). -/
structure WorkerState where
  id : Nat
  batch : Batch
  samples : List MemorySample
deriving DecidableEq, Repr

/-- One entry of `workerStats` (the `Summary.workers` record). -/
structure WStat where
  id : Nat
  files : Nat
  peakRSS : Nat
  duration : Nat
deriving DecidableEq, Repr

/-- The module-level mutable state of `master.ts` (lines 101-108).
`activeWorkers` and `completedResults` are JavaScript `Map`s, embedded as
association lists where `set` conses a fresh key and `delete` filters. -/
structure MasterState where
  batchIdCounter : Nat
  workerIdCounter : Nat
  pending : List Batch
  active : List (Nat × WorkerState)
  completed : List (Nat × List LintRes)
  failedFiles : List FailedFile
  workerStats : List WStat
deriving DecidableEq, Repr

/-- The all-empty initial state of the module-level collections. -/
def initState : MasterState :=
  { batchIdCounter := 0, workerIdCounter := 0, pending := [], active := [],
    completed := [], failedFiles := [], workerStats := [] }

/-- `Math.ceil (a / b)` on naturals (used with `b > 0`). -/
def natCeilDiv (a b : Nat) : Nat := (a + b - 1) / b

/-- `getTotalRSS` (master.ts lines 115-125): the master's own RSS plus, for
each active worker, the `rss` of its last memory sample; a worker whose
sample list is empty contributes nothing. -/
def getTotalRSS (masterRss : Nat) (active : List (Nat × WorkerState)) : Nat :=
  active.foldl
    (fun total w =>
      match w.2.samples.getLast? with
      | some s => total + s.rss
      | none => total)
    masterRss

/-- The spawn-gate threshold
`CONFIG.containerLimitMB * 1024 * 1024 * CONFIG.memoryThresholdPercent / 100`
(master.ts lines 131-133; exact for the default configuration). -/
def thresholdBytes (cfg : Config) : Nat :=
  cfg.containerLimitMB * 1024 * 1024 * cfg.memoryThresholdPercent / 100

/-- `canSpawnWorker` (master.ts lines 127-135).  `masterRss` is the value the
call reads from `process.memoryUsage().rss`. -/
def canSpawnWorker (cfg : Config) (masterRss : Nat) (st : MasterState) : Bool :=
  if st.active.length ≥ cfg.maxWorkers then
    false
  else
    getTotalRSS masterRss st.active < thresholdBytes cfg

/-- The slice loop of `createBatches` (master.ts lines 144-150):
`for (let i = 0; i < files.length; i += batchSize) push(slice(i, i+batchSize))`.
The fuel argument makes the recursion structural; since every step drops at
least one file (`batchSize ≥ 1` at every call site), fuel `files.length` is
never exhausted and the middle branch is unreachable. -/
def createBatchesGo (batchSize : Nat) : Nat → Nat → List String → List Batch
  | _, _, [] => []
  | ctr, 0, rest => [⟨ctr, rest, 0⟩]
  | ctr, fuel + 1, f :: fs =>
      ⟨ctr, (f :: fs).take batchSize, 0⟩ ::
        createBatchesGo batchSize (ctr + 1) fuel ((f :: fs).drop batchSize)

/-- `createBatches` (master.ts lines 137-153), with the module counter
`batchIdCounter` threaded explicitly: returns the batches and the counter
value after the `batchIdCounter++` of each push. -/
def createBatches (cfg : Config) (ctr : Nat) (files : List String) :
    List Batch × Nat :=
  let batchSize := max 1 (natCeilDiv files.length cfg.initialBatchDivisor)
  let batches := createBatchesGo batchSize ctr files.length files
  (batches, ctr + batches.length)

/-- `splitBatch` (master.ts lines 155-169), with `batchIdCounter` threaded
explicitly: `mid = Math.ceil(files.length / 2)`, left takes the first `mid`
files, right the rest, both with `retries + 1` and the two fresh ids. -/
def splitBatch (b : Batch) (ctr : Nat) : List Batch × Nat :=
  let mid := natCeilDiv b.files.length 2
  ([⟨ctr, b.files.take mid, b.retries + 1⟩,
    ⟨ctr + 1, b.files.drop mid, b.retries + 1⟩],
   ctr + 2)

/-- JavaScript truthiness of the optional `file` field of an error message
(`errorType === "parse_error" && file`): present and not the empty string. -/
def optFilePresent : Option String → Bool
  | some f => f ≠ ""
  | none => false

/-- `handleWorkerError` (master.ts lines 267-293). -/
def handleWorkerError (cfg : Config) (st : MasterState) (batch : Batch)
    (errorType : ErrorType) (message : String) (file : Option String) :
    MasterState :=
  if errorType = .oom ∧ batch.retries < cfg.maxRetries ∧ batch.files.length > 1 then
    let split := splitBatch batch st.batchIdCounter
    { st with pending := st.pending ++ split.1, batchIdCounter := split.2 }
  else if errorType = .parse_error ∧ optFilePresent file then
    { st with failedFiles := st.failedFiles ++ [⟨file.getD "", errorType, message⟩] }
  else
    { st with
      failedFiles :=
        st.failedFiles ++ batch.files.map fun f => ⟨f, errorType, message⟩ }

/-- The state effect of `spawnWorker` (master.ts lines 172-213): take the next
worker id, register the worker with its batch and an empty sample list.
(Forking the child and sending it the task are IO.) -/
def spawnWorker (st : MasterState) (batch : Batch) : MasterState :=
  { st with
    workerIdCounter := st.workerIdCounter + 1
    active :=
      (st.workerIdCounter, ⟨st.workerIdCounter, batch, []⟩) :: st.active }

/-- The `while (pendingBatches.length > 0 && canSpawnWorker())` loop of
`processNextBatch` (master.ts lines 296-299).  `env` is the stream of
`process.memoryUsage().rss` readings, one per `canSpawnWorker` call.  The fuel
makes the recursion structural; each iteration shifts one pending batch, so
fuel `st.pending.length` is exactly enough and the loop is never cut short. -/
def processLoop (cfg : Config) : Nat → List Nat → MasterState → MasterState
  | 0, _, st => st
  | fuel + 1, env, st =>
      match st.pending with
      | [] => st
      | b :: rest =>
          if canSpawnWorker cfg (env.headD 0) st then
            processLoop cfg fuel env.tail (spawnWorker { st with pending := rest } b)
          else
            st

/-- `processNextBatch` (master.ts lines 295-305); the terminal
`pending = [] ∧ active = []` check only triggers `finalize`, which is pure
reporting over the final state. -/
def processNextBatch (cfg : Config) (env : List Nat) (st : MasterState) :
    MasterState :=
  processLoop cfg st.pending.length env st

/-- Signals the exit handler distinguishes. -/
inductive ExitSignal
  | SIGKILL
  | SIGTERM
  | SIGINT
deriving DecidableEq, Repr

/-- The template string `` `Exit code ${code}` `` of master.ts line 246. -/
def exitCodeMessage : Option Int → String
  | some c => "Exit code " ++ toString c
  | none => "Exit code null"

/-- `activeWorkers.delete(workerId)`. -/
def removeActive (st : MasterState) (wid : Nat) : MasterState :=
  { st with active := st.active.filter fun p => p.1 ≠ wid }

/-- The `child.on("message")` handler for a `memory` message (master.ts
lines 217-218): push onto the worker's sample list. -/
def handleMemoryMsg (st : MasterState) (wid : Nat) (s : MemorySample) :
    MasterState :=
  { st with
    active := st.active.map fun p =>
      if p.1 = wid then (p.1, { p.2 with samples := p.2.samples ++ [s] }) else p }

/-- The `child.on("message")` handler for a `result` message (master.ts
lines 219-227): record the results under the worker id and push the worker's
stats entry.  The handler closes over `workerId` and `batch`; the closure is
embedded as a lookup of the registered worker. -/
def handleResultMsg (st : MasterState) (wid : Nat) (results : List LintRes)
    (peakRSS duration : Nat) : MasterState :=
  match st.active.lookup wid with
  | none => st
  | some w =>
      { st with
        completed := (wid, results) :: st.completed
        workerStats :=
          st.workerStats ++ [⟨wid, w.batch.files.length, peakRSS, duration⟩] }

/-- The `child.on("message")` handler for an `error` message (master.ts
lines 228-233): classify through `handleWorkerError` with the worker's batch. -/
def handleErrorMsg (cfg : Config) (st : MasterState) (wid : Nat)
    (errorType : ErrorType) (message : String) (file : Option String) :
    MasterState :=
  match st.active.lookup wid with
  | none => st
  | some w => handleWorkerError cfg st w.batch errorType message file

/-- The `child.on("exit")` handler (master.ts lines 237-257), up to but not
including the trailing `processNextBatch` call: remove the worker from the
active set; on `SIGKILL` or exit code 137 classify as `oom`; otherwise on a
non-zero code with no recorded result classify as `unknown`.  (Persisting the
sample timeline is IO.) -/
def handleExit (cfg : Config) (st : MasterState) (wid : Nat)
    (code : Option Int) (signal : Option ExitSignal) : MasterState :=
  match st.active.lookup wid with
  | none => st
  | some w =>
      let st1 := removeActive st wid
      if signal = some .SIGKILL ∨ code = some 137 then
        handleWorkerError cfg st1 w.batch .oom "Process killed - likely OOM" none
      else if code ≠ some 0 ∧ st.completed.lookup wid = none then
        handleWorkerError cfg st1 w.batch .unknown (exitCodeMessage code) none
      else
        st1

/-- The `child.on("error")` spawn-failure handler (master.ts lines 259-264),
up to the trailing `processNextBatch` call. -/
def handleSpawnErr (cfg : Config) (st : MasterState) (wid : Nat)
    (errMsg : String) : MasterState :=
  match st.active.lookup wid with
  | none => st
  | some w => handleWorkerError cfg (removeActive st wid) w.batch .unknown errMsg none

/-- The event classes the single-threaded orchestrator reacts to: spawn-loop
activations, the three inbound message kinds, child exit, and child spawn
failure.  `env` carries the RSS readings consumed by the spawn loop the
handler ends with. -/
inductive Event
  | spawnLoop (env : List Nat)
  | msgMemory (wid : Nat) (s : MemorySample)
  | msgResult (wid : Nat) (results : List LintRes) (peakRSS duration : Nat)
  | msgError (wid : Nat) (errorType : ErrorType) (message : String)
      (file : Option String)
  | procExit (wid : Nat) (code : Option Int) (signal : Option ExitSignal)
      (env : List Nat)
  | spawnErr (wid : Nat) (errMsg : String) (env : List Nat)
deriving Repr

/-- One reactor step of the orchestrator. -/
def step (cfg : Config) (st : MasterState) : Event → MasterState
  | .spawnLoop env => processNextBatch cfg env st
  | .msgMemory wid s => handleMemoryMsg st wid s
  | .msgResult wid results p d => handleResultMsg st wid results p d
  | .msgError wid et m f => handleErrorMsg cfg st wid et m f
  | .procExit wid code signal env =>
      processNextBatch cfg env (handleExit cfg st wid code signal)
  | .spawnErr wid m env =>
      processNextBatch cfg env (handleSpawnErr cfg st wid m)

/-- The orchestrator state after `main` created the initial batches
(master.ts lines 430-433) and before the first spawn loop. -/
def startState (cfg : Config) (files : List String) : MasterState :=
  let created := createBatches cfg initState.batchIdCounter files
  { initState with pending := initState.pending ++ created.1, batchIdCounter := created.2 }

/-- A run of the orchestrator on the discovered file list: fold the event
trace over the start state. -/
def runTrace (cfg : Config) (files : List String) (tr : List Event) :
    MasterState :=
  tr.foldl (step cfg) (startState cfg files)

/-- The files appearing in the persisted per-worker results
(`worker-<id>-results.json`, written by `finalize` from `completedResults`). -/
def completedFilesOf (completed : List (Nat × List LintRes)) : List String :=
  (completed.map fun c => c.2.map LintRes.filePath).flatten

/-- The files appearing in `summary.failures`. -/
def failedPathsOf (failed : List FailedFile) : List String :=
  failed.map FailedFile.file

/-- The empty-input gate of `main` (master.ts lines 425-428) together with
steps 3-5: on an empty discovery result, print `No files to lint.` and exit 0
before any batch is created, any worker spawned or any output written; the
`run` branch alone carries the orchestration state. -/
inductive MainOutcome
  | emptyExit (message : String) (code : Nat)
  | run (st : MasterState)
deriving Repr

/-- `main` from file discovery onwards (master.ts lines 422-441). -/
def mainAfterDiscovery (cfg : Config) (env : List Nat) (files : List String) :
    MainOutcome :=
  if files.length = 0 then
    .emptyExit "No files to lint." 0
  else
    .run (processNextBatch cfg env (startState cfg files))

/-! ## Worker driver (worker.ts) -/

/-- `pat` is a prefix of `l`. -/
def charsStartWith : List Char → List Char → Bool
  | [], _ => true
  | _ :: _, [] => false
  | p :: ps, c :: cs => p = c && charsStartWith ps cs

/-- `pat` occurs somewhere in `l`. -/
def charsContain (l pat : List Char) : Bool :=
  match l with
  | [] => pat.isEmpty
  | _ :: rest => charsStartWith pat l || charsContain rest pat

/-- `pat` occurs as a substring of `s` (JavaScript `s.includes(pat)`). -/
def strContains (s pat : String) : Bool :=
  charsContain s.toList pat.toList

/-- Whitespace as matched by the `\s` class for the messages at hand. -/
def isWS (c : Char) : Bool :=
  c = ' ' ∨ c = '\t' ∨ c = '\n' ∨ c = '\r'

/-- Attempt the pattern `in\s+([^\s:]+)` at the head of `l`: the literal
`in`, at least one whitespace character, then a non-empty capture of
characters that are neither whitespace nor `:`. -/
def matchInAt (l : List Char) : Option (List Char) :=
  match l with
  | 'i' :: 'n' :: c :: rest =>
      if isWS c then
        let tok := ((c :: rest).dropWhile isWS).takeWhile fun ch => ¬ isWS ch ∧ ch ≠ ':'
        if tok = [] then none else some tok
      else none
  | _ => none

/-- Left-to-right scan of `errMsg.match(/in\s+([^\s:]+)/)` (worker.ts
line 119): the capture at the first position where the pattern matches. -/
def scanForIn : List Char → Option (List Char)
  | [] => none
  | c :: rest =>
      match matchInAt (c :: rest) with
      | some tok => some tok
      | none => scanForIn rest

/-- The worker-side error classification (worker.ts lines 113-123): message
containing `Parsing error` or `parserServices` is a `parse_error` (with the
file extracted from the message when the pattern matches); message containing
`Rule ` or `rule '` is a `rule_crash`; anything else is `unknown`. -/
def workerClassify (errMsg : String) : ErrorType × Option String :=
  if strContains errMsg "Parsing error" || strContains errMsg "parserServices" then
    (.parse_error, (scanForIn errMsg.toList).map fun l => String.mk l)
  else if strContains errMsg "Rule " || strContains errMsg "rule '" then
    (.rule_crash, none)
  else
    (.unknown, none)

/-- The messages a worker can emit (worker → master direction of the codec). -/
inductive WMsg
  | memory (s : MemorySample)
  | result (results : List LintRes) (peakRSS duration : Nat)
  | error (errorType : ErrorType) (message : String) (file : Option String)
deriving DecidableEq, Repr

/-- A message is terminal iff it is a `result` or an `error`. -/
def WMsg.isTerminal : WMsg → Bool
  | .memory _ => false
  | _ => true

/-- What `await eslint.lintFiles(task.files)` did, as the worker observes it:
returned results or threw with an error message. -/
inductive LintOutcome
  | ok (results : List LintRes)
  | threw (errMsg : String)
deriving DecidableEq, Repr

/-- The observable behaviour of one worker code path: the ordered messages it
sent over IPC and the status it exited with. -/
structure WorkerRun where
  messages : List WMsg
  exitCode : Nat
deriving DecidableEq, Repr

/-- `runLint` (worker.ts lines 46-136) with the test-scenario hook inert (the
default scenario `none` makes the pre-lint loop a no-op): the periodic
sampler emits `memSamples` as `memory` messages while linting, then exactly
one terminal message is sent — `result` on success, the classified `error` on
a thrown lint error — and the worker calls `process.exit(0)`. -/
def runLintRun (memSamples : List MemorySample) (outcome : LintOutcome)
    (peakRSS duration : Nat) : WorkerRun :=
  match outcome with
  | .ok results =>
      ⟨(memSamples.map WMsg.memory) ++ [WMsg.result results peakRSS duration], 0⟩
  | .threw errMsg =>
      let cls := workerClassify errMsg
      ⟨(memSamples.map WMsg.memory) ++ [WMsg.error cls.1 errMsg cls.2], 0⟩

/-- The `uncaughtException` handler (worker.ts lines 149-158): send a terminal
`error` message with `errorType = unknown`, then `process.exit(1)`. -/
def uncaughtRun (errMsg : String) : WorkerRun :=
  ⟨[WMsg.error .unknown errMsg none], 1⟩

/-- Number of terminal messages in a worker run. -/
def terminalCount (r : WorkerRun) : Nat :=
  (r.messages.filter WMsg.isTerminal).length

/-! ## Memory profiler (mem-profiler.ts) -/

/-- One timeline entry of the profiler (`sample`, mem-profiler.ts
lines 18-30); `pid`, `external` and `arrayBuffers` carry no information the
claims touch and are omitted alongside them. -/
structure ProfSample where
  ts : Nat
  label : String
  rss : Nat
  heapTotal : Nat
  heapUsed : Nat
deriving DecidableEq, Repr

/-- The process-metrics reading a sample captures. -/
structure MemUsage where
  rss : Nat
  heapTotal : Nat
  heapUsed : Nat
deriving DecidableEq, Repr

/-- `MemProfiler` (mem-profiler.ts lines 3-35): a timeline and a nullable
timer handle. -/
structure MemProfiler where
  timeline : List ProfSample
  timer : Option Nat
deriving DecidableEq, Repr

/-- The freshly constructed profiler. -/
def MemProfiler.new : MemProfiler := ⟨[], none⟩

/-- `start` (mem-profiler.ts lines 7-11): install the periodic tick; the
runtime hands back the timer id `t`.  (The ticks themselves are the
`sampleAt` events.) -/
def MemProfiler.start (p : MemProfiler) (t : Nat) : MemProfiler :=
  { p with timer := some t }

/-- `stop` (mem-profiler.ts lines 13-16): `if (this.timer)
clearInterval(this.timer); this.timer = null`.  The second component lists
the timer ids passed to `clearInterval` by this call. -/
def MemProfiler.stop (p : MemProfiler) : MemProfiler × List Nat :=
  match p.timer with
  | some t => ({ p with timer := none }, [t])
  | none => ({ p with timer := none }, [])

/-- `n` successive `stop()` calls, collecting every timer id cancelled. -/
def MemProfiler.stopN (p : MemProfiler) : Nat → MemProfiler × List Nat
  | 0 => (p, [])
  | n + 1 =>
      let first := p.stop
      let rest := first.1.stopN n
      (rest.1, first.2 ++ rest.2)

/-- `sample` (mem-profiler.ts lines 18-30): append a labelled reading. -/
def MemProfiler.sampleAt (p : MemProfiler) (ts : Nat) (label : String)
    (m : MemUsage) : MemProfiler :=
  { p with timeline := p.timeline ++ [⟨ts, label, m.rss, m.heapTotal, m.heapUsed⟩] }

/-! ## Instrumented runs

For the conservation property the master state is extended by a ghost
history: the list of worker ids from which an `error` message has been
received.  The ghost component records history only; the master-state
component evolves exactly by `step`. -/

/-- One step of the instrumented run. -/
def gstep (cfg : Config) (g : MasterState × List Nat) (e : Event) :
    MasterState × List Nat :=
  match e with
  | .msgError wid _ _ _ => (step cfg g.1 e, wid :: g.2)
  | _ => (step cfg g.1 e, g.2)

/-- The instrumented run of a trace. -/
def grun (cfg : Config) (files : List String) (tr : List Event) :
    MasterState × List Nat :=
  tr.foldl (gstep cfg) (startState cfg files, [])

/-- A worker id is resolved once its terminal message has been processed:
either its results are recorded in `completedResults` or an error message
from it has been handled. -/
def resolvedW (g : MasterState × List Nat) (wid : Nat) : Bool :=
  (g.1.completed.lookup wid).isSome || g.2.contains wid

/-- A well-behaved event, relative to the current instrumented state.  These
conditions express the worker lifecycle the spec relies on: messages come
from registered workers; a worker sends at most one terminal message, a
`result` message lists exactly the files of the worker's batch, and a worker
never reports `errorType = oom` itself (worker.ts classifies only
`parse_error`, `rule_crash` and `unknown`); a worker that sent its terminal
message exits cleanly (code 0 after a `result`; uninvolved with `SIGKILL`
or code 137 after an `error`), while a worker that vanished without a
terminal message does not exit with code 0.  The amendment forced by the
counterexample is the last conjunct of the `msgError` case: no `parse_error`
with an identified file occurs. -/
def goodEventB (g : MasterState × List Nat) : Event → Bool
  | .spawnLoop _ => true
  | .msgMemory _ _ => true
  | .msgResult wid results _ _ =>
      match g.1.active.lookup wid with
      | some w =>
          decide (results.map LintRes.filePath = w.batch.files) && !(resolvedW g wid)
      | none => false
  | .msgError wid et _ file =>
      (g.1.active.lookup wid).isSome && !(resolvedW g wid) &&
        !(et = ErrorType.oom : Bool) && !((et = ErrorType.parse_error : Bool) && optFilePresent file)
  | .procExit wid code signal _ =>
      (g.1.active.lookup wid).isSome &&
        (if (g.1.completed.lookup wid).isSome then
          (code = some 0 : Bool) && !(signal = some ExitSignal.SIGKILL : Bool)
        else if g.2.contains wid then
          !(signal = some ExitSignal.SIGKILL : Bool) && !(code = some 137 : Bool)
        else
          (signal = some ExitSignal.SIGKILL : Bool) || (code = some 137 : Bool) ||
            !(code = some 0 : Bool))
  | .spawnErr wid _ _ => (g.1.active.lookup wid).isSome && !(resolvedW g wid)

/-- Every event of the trace is well behaved at the state it meets. -/
def GoodRunB (cfg : Config) (g : MasterState × List Nat) : List Event → Bool
  | [] => true
  | e :: tr => goodEventB g e && GoodRunB cfg (gstep cfg g e) tr

/-- A well-behaved trace for a run on `files`. -/
def GoodTraceB (cfg : Config) (files : List String) (tr : List Event) : Bool :=
  GoodRunB cfg (startState cfg files, []) tr

/-- Files of the active workers that have not yet sent a terminal message,
for an arbitrary resolution predicate on worker ids. -/
def unresFilesWith (active : List (Nat × WorkerState)) (r : Nat → Bool) :
    List String :=
  ((active.filter fun p => !(r p.1)).map fun p => p.2.batch.files).flatten

/-- Files of all pending batches. -/
def pendFiles (st : MasterState) : List String :=
  (st.pending.map Batch.files).flatten

/-- The in-flight files: files of pending batches plus files of unresolved
active workers. -/
def liveFiles (g : MasterState × List Nat) : List String :=
  pendFiles g.1 ++ unresFilesWith g.1.active (resolvedW g)

/-- The content part of the conservation invariant, over the three file
collections: in-flight files, completed files, failed files.  They cover the
input; in-flight files are duplicate-free and disjoint from both sinks; the
two sinks are disjoint. -/
structure ContentInv (files0 live C F : List String) : Prop where
  cover : ∀ f ∈ files0, f ∈ live ∨ f ∈ C ∨ f ∈ F
  nodupLive : live.Nodup
  liveC : ∀ f ∈ live, f ∉ C
  liveF : ∀ f ∈ live, f ∉ F
  compF : ∀ f ∈ C, f ∉ F

/-- The conservation invariant of the instrumented orchestrator state: the
content invariant instantiated at the state's file collections, plus the key
bookkeeping — unique active keys, all recorded ids below the id counter,
error-resolved ids absent from the completed map, and error-resolved workers
still in the active map already having their whole batch in the failures
list. -/
structure ConsInv (files0 : List String) (g : MasterState × List Nat) : Prop where
  content : ContentInv files0 (liveFiles g) (completedFilesOf g.1.completed)
    (failedPathsOf g.1.failedFiles)
  keysNodup : (g.1.active.map Prod.fst).Nodup
  activeLt : ∀ k ∈ g.1.active.map Prod.fst, k < g.1.workerIdCounter
  compLt : ∀ k ∈ g.1.completed.map Prod.fst, k < g.1.workerIdCounter
  errLt : ∀ k ∈ g.2, k < g.1.workerIdCounter
  errComp : ∀ k ∈ g.2, g.1.completed.lookup k = none
  errFail : ∀ p ∈ g.1.active, p.1 ∈ g.2 →
    ∀ f ∈ p.2.batch.files,
      f ∈ failedPathsOf g.1.failedFiles ∧ f ∉ completedFilesOf g.1.completed

/-- The file list of the conservation counterexample run. -/
def cexFiles : List String := ["a", "b", "c", "d", "e"]

/-- A run refuting unconditional conservation: the initial partition of the
five files (divisor 4) is `[a,b]`, `[c,d]`, `[e]`; worker 0, holding
`[a,b]`, reports a `parse_error` identifying file `a` and exits cleanly; the
other two batches complete normally.  File `b` ends up in no sink. -/
def cexTrace : List Event :=
  [.spawnLoop [0, 0],
   .msgError 0 .parse_error "Parsing error in a" (some "a"),
   .procExit 0 (some 0) none [0],
   .msgResult 1 [⟨"c", 0, 0⟩, ⟨"d", 0, 0⟩] 0 0,
   .procExit 1 (some 0) none [],
   .msgResult 2 [⟨"e", 0, 0⟩] 0 0,
   .procExit 2 (some 0) none []]

/-- A well-behaved two-file run in which both singleton batches complete. -/
def happyTrace : List Event :=
  [.spawnLoop [0, 0],
   .msgResult 0 [⟨"a", 0, 0⟩] 0 0,
   .procExit 0 (some 0) none [],
   .msgResult 1 [⟨"b", 0, 0⟩] 0 0,
   .procExit 1 (some 0) none []]

/-! ## Batch model: bisection and initial partitioning -/

/-- C4: Bisection soundness.  For a batch with at least 2 files,
`splitBatch` produces exactly two children: with `n` the file count and
`m = ceil(n/2)`, the left child takes the first `m` files and the right child
the remaining `n - m`; their concatenation is the parent's file list, the
lengths add up, both children are non-empty, both carry `retries + 1`, and
the ids are the two fresh consecutive counter values, the counter advancing
by two. -/
theorem bisect_sound (b : Batch) (ctr : Nat) (h : 2 ≤ b.files.length) :
    ∃ l r, (splitBatch b ctr).1 = [l, r] ∧
      l.files = b.files.take (natCeilDiv b.files.length 2) ∧
      r.files = b.files.drop (natCeilDiv b.files.length 2) ∧
      l.files ++ r.files = b.files ∧
      l.files.length + r.files.length = b.files.length ∧
      l.files ≠ [] ∧ r.files ≠ [] ∧
      l.retries = b.retries + 1 ∧ r.retries = b.retries + 1 ∧
      l.id = ctr ∧ r.id = ctr + 1 ∧ (splitBatch b ctr).2 = ctr + 2 := by
  refine ⟨_, _, rfl, rfl, rfl, List.take_append_drop _ _, ?_, ?_, ?_,
    rfl, rfl, rfl, rfl, rfl⟩
  · simp only [List.length_take, List.length_drop, natCeilDiv]
    omega
  · apply List.length_pos.mp
    simp only [List.length_take, natCeilDiv]
    omega
  · apply List.length_pos.mp
    simp only [List.length_drop, natCeilDiv]
    omega

/-- C4 witness: `bisect_sound` instantiated on a 3-file batch. -/
theorem bisect_sound_witness :
    ∃ l r, (splitBatch ⟨5, ["a", "b", "c"], 1⟩ 7).1 = [l, r] ∧
      l.files = ["a", "b", "c"].take (natCeilDiv 3 2) ∧
      r.files = ["a", "b", "c"].drop (natCeilDiv 3 2) ∧
      l.files ++ r.files = ["a", "b", "c"] ∧
      l.files.length + r.files.length = 3 ∧
      l.files ≠ [] ∧ r.files ≠ [] ∧
      l.retries = 2 ∧ r.retries = 2 ∧
      l.id = 7 ∧ r.id = 8 ∧ (splitBatch ⟨5, ["a", "b", "c"], 1⟩ 7).2 = 9 :=
  bisect_sound ⟨5, ["a", "b", "c"], 1⟩ 7 (by decide)

/-- The slices produced by the partition loop concatenate back to the input. -/
theorem createBatchesGo_flatten (s : Nat) (hs : 1 ≤ s) :
    ∀ (fuel : Nat) (files : List String) (ctr : Nat), files.length ≤ fuel →
      ((createBatchesGo s ctr fuel files).map Batch.files).flatten = files := by
  intro fuel
  induction fuel with
  | zero =>
      intro files ctr hf
      have hnil : files = [] := List.eq_nil_of_length_eq_zero (by omega)
      subst hnil
      rfl
  | succ n ih =>
      intro files ctr hf
      match files with
      | [] => rfl
      | f :: fs =>
          simp only [createBatchesGo, List.map_cons, List.flatten_cons]
          rw [ih ((f :: fs).drop s) (ctr + 1)
            (by simp only [List.length_drop]; simp at hf ⊢; omega)]
          exact List.take_append_drop s (f :: fs)

/-- Every slice produced by the partition loop has retry depth 0, is
non-empty, and has at most `s` files. -/
theorem createBatchesGo_mem (s : Nat) (hs : 1 ≤ s) :
    ∀ (fuel : Nat) (files : List String) (ctr : Nat), files.length ≤ fuel →
      ∀ b ∈ createBatchesGo s ctr fuel files,
        b.retries = 0 ∧ b.files ≠ [] ∧ b.files.length ≤ s := by
  intro fuel
  induction fuel with
  | zero =>
      intro files ctr hf b hb
      have hnil : files = [] := List.eq_nil_of_length_eq_zero (by omega)
      subst hnil
      simp [createBatchesGo] at hb
  | succ n ih =>
      intro files ctr hf b hb
      match files with
      | [] => simp [createBatchesGo] at hb
      | f :: fs =>
          simp only [createBatchesGo, List.mem_cons] at hb
          rcases hb with rfl | hb
          · refine ⟨rfl, ?_, ?_⟩
            · apply List.length_pos.mp
              simp only [List.length_take, List.length_cons]
              omega
            · simp only [List.length_take]
              omega
          · exact ih _ (ctr + 1)
              (by simp only [List.length_drop]; simp at hf ⊢; omega) b hb

/-- The partition loop yields no batch iff the input is empty. -/
theorem createBatchesGo_eq_nil_iff (s ctr fuel : Nat) (files : List String) :
    createBatchesGo s ctr fuel files = [] ↔ files = [] := by
  match fuel, files with
  | _, [] => simp [createBatchesGo]
  | 0, f :: fs => simp [createBatchesGo]
  | n + 1, f :: fs => simp [createBatchesGo]

/-- Every slice of the partition loop except the last has exactly `s`
files. -/
theorem createBatchesGo_getD (s : Nat) (hs : 1 ≤ s) :
    ∀ (fuel : Nat) (files : List String) (ctr : Nat), files.length ≤ fuel →
      ∀ i, i + 1 < (createBatchesGo s ctr fuel files).length →
        ((createBatchesGo s ctr fuel files).getD i ⟨0, [], 0⟩).files.length = s := by
  intro fuel
  induction fuel with
  | zero =>
      intro files ctr hf i hi
      have hnil : files = [] := List.eq_nil_of_length_eq_zero (by omega)
      subst hnil
      simp [createBatchesGo] at hi
  | succ n ih =>
      intro files ctr hf i hi
      match files with
      | [] => simp [createBatchesGo] at hi
      | f :: fs =>
          simp only [createBatchesGo, List.length_cons] at hi ⊢
          match i with
          | 0 =>
              simp only [List.getD_cons_zero]
              have hrec : createBatchesGo s (ctr + 1) n ((f :: fs).drop s) ≠ [] := by
                intro hnil
                rw [hnil] at hi
                simp at hi
              have hdrop : (f :: fs).drop s ≠ [] :=
                fun hd => hrec (by rw [hd]; exact (createBatchesGo_eq_nil_iff _ _ _ _).mpr rfl)
              have hlen : s < (f :: fs).length := by
                by_contra hle
                push_neg at hle
                exact hdrop (List.drop_eq_nil_of_le hle)
              simp only [List.length_take]
              omega
          | j + 1 =>
              simp only [List.getD_cons_succ]
              exact ih _ (ctr + 1)
                (by simp only [List.length_drop]; simp at hf ⊢; omega) j (by omega)

/-- C5: Initial partition.  For every file list and configuration,
`createBatches` cuts the input into consecutive slices of length
`s = max 1 (ceil(len/divisor))` — concatenating back to the input, all with
retry depth 0, all non-empty and at most `s` long, and all except possibly
the final one exactly `s` long; in particular 10 files with the default
divisor 4 yield exactly 4 batches of sizes 3, 3, 3, 1. -/
theorem initial_partition_spec :
    (∀ (cfg : Config) (files : List String) (ctr : Nat), files ≠ [] →
      (((createBatches cfg ctr files).1.map Batch.files).flatten = files) ∧
      (∀ b ∈ (createBatches cfg ctr files).1,
        b.retries = 0 ∧ b.files ≠ [] ∧
          b.files.length ≤ max 1 (natCeilDiv files.length cfg.initialBatchDivisor)) ∧
      (∀ i, i + 1 < (createBatches cfg ctr files).1.length →
        ((createBatches cfg ctr files).1.getD i ⟨0, [], 0⟩).files.length =
          max 1 (natCeilDiv files.length cfg.initialBatchDivisor))) ∧
    (((createBatches CONFIG 0
        ["f1", "f2", "f3", "f4", "f5", "f6", "f7", "f8", "f9", "f10"]).1.map
      fun b => b.files.length) = [3, 3, 3, 1]) := by
  constructor
  · intro cfg files ctr _hne
    have hs : 1 ≤ max 1 (natCeilDiv files.length cfg.initialBatchDivisor) :=
      le_max_left _ _
    exact ⟨createBatchesGo_flatten _ hs _ _ _ le_rfl,
      createBatchesGo_mem _ hs _ _ _ le_rfl,
      createBatchesGo_getD _ hs _ _ _ le_rfl⟩
  · rfl

/-- C5 witness: `initial_partition_spec` applied to a concrete 3-file list. -/
theorem initial_partition_witness :
    ((createBatches CONFIG 5 ["x", "y", "z"]).1.map Batch.files).flatten =
      ["x", "y", "z"] :=
  (initial_partition_spec.1 CONFIG ["x", "y", "z"] 5 (by decide)).1

/-! ## Admission controller -/

/-- Unfolding of the RSS accumulation loop of `getTotalRSS`. -/
theorem getTotalRSS_eq (masterRss : Nat) (active : List (Nat × WorkerState)) :
    getTotalRSS masterRss active =
      masterRss +
        (active.map fun p =>
          ((p.2.samples.getLast?).map MemorySample.rss).getD 0).sum := by
  induction active generalizing masterRss with
  | nil => simp [getTotalRSS]
  | cons p l ih =>
      simp only [getTotalRSS, List.foldl_cons] at ih ⊢
      rw [List.map_cons, List.sum_cons]
      cases h : p.2.samples.getLast? with
      | none =>
          simp only [h, Option.map_none', Option.getD_none]
          rw [ih]
          ring
      | some s =>
          simp only [h, Option.map_some', Option.getD_some]
          rw [ih]
          ring

/-- C6: Admission decision.  `canSpawnWorker` returns true iff the active
worker count is strictly below `MAX_WORKERS` and the master RSS plus the sum
of the last observed sample RSS of each active worker (0 for workers with no
sample yet) is strictly below
`CONTAINER_LIMIT_MB × 1024² × MEM_THRESHOLD_PERCENT / 100`. -/
theorem can_spawn_iff (cfg : Config) (masterRss : Nat) (st : MasterState) :
    canSpawnWorker cfg masterRss st = true ↔
      (st.active.length < cfg.maxWorkers ∧
        masterRss +
            (st.active.map fun p =>
              ((p.2.samples.getLast?).map MemorySample.rss).getD 0).sum <
          cfg.containerLimitMB * 1024 * 1024 * cfg.memoryThresholdPercent / 100) := by
  unfold canSpawnWorker
  split
  · rename_i hge
    simp only [Bool.false_eq_true, false_iff]
    rintro ⟨hlt, -⟩
    omega
  · rename_i hge
    simp only [decide_eq_true_eq, getTotalRSS_eq, thresholdBytes]
    exact ⟨fun h => ⟨by omega, h⟩, And.right⟩

/-! ## Memory profiler -/

/-- A profiler whose timer is already null is a fixed point of `stop`. -/
theorem stopN_of_timer_none (q : MemProfiler) (hq : q.timer = none) :
    ∀ n, q.stopN n = (q, []) := by
  intro n
  induction n with
  | zero => rfl
  | succ m ih =>
      have hstop : q.stop = (q, []) := by
        cases q with
        | mk tl tm =>
            simp only at hq
            subst hq
            rfl
      simp [MemProfiler.stopN, hstop, ih]

/-- C9: Idempotent sampler stop.  After a single `start`, any positive number
of `stop` calls produces the same profiler state and the same cancellation
effect as a single `stop`: the installed timer is cancelled exactly once and
the timer field is null afterwards. -/
theorem stop_idempotent (p0 : MemProfiler) (t : Nat) (n : Nat) :
    ((p0.start t).stopN (n + 1)).1 = ((p0.start t).stop).1 ∧
    ((p0.start t).stopN (n + 1)).2 = ((p0.start t).stop).2 ∧
    ((p0.start t).stopN (n + 1)).1.timer = none ∧
    ((p0.start t).stopN (n + 1)).2 = [t] := by
  have hstop : (p0.start t).stop = (⟨p0.timeline, none⟩, [t]) := by
    cases p0
    rfl
  have hrest : (MemProfiler.mk p0.timeline none).stopN n =
      (⟨p0.timeline, none⟩, []) :=
    stopN_of_timer_none _ rfl n
  simp [MemProfiler.stopN, hstop, hrest]

/-! ## Empty-input gate -/

/-- C10: Empty-input edge case.  When discovery yields no files, `main`
prints `No files to lint.` and exits with status 0 before any batch is
created, any worker spawned or any output written (the `run` branch, which
alone carries the orchestration that spawns workers and produces
`summary.json` and per-worker files, is taken exactly for non-empty
inputs). -/
theorem empty_input_early_exit :
    (∀ (cfg : Config) (env : List Nat),
      mainAfterDiscovery cfg env [] = MainOutcome.emptyExit "No files to lint." 0) ∧
    (∀ (cfg : Config) (env : List Nat) (f : String) (fs : List String),
      mainAfterDiscovery cfg env (f :: fs) =
        MainOutcome.run (processNextBatch cfg env (startState cfg (f :: fs)))) := by
  exact ⟨fun cfg env => rfl, fun cfg env f fs => rfl⟩

/-! ## Failure classifier and recovery policy -/

/-- Recovery never touches the active worker map. -/
theorem handleWorkerError_active (cfg : Config) (st : MasterState) (b : Batch)
    (et : ErrorType) (m : String) (f : Option String) :
    (handleWorkerError cfg st b et m f).active = st.active := by
  unfold handleWorkerError
  split
  · rfl
  · split <;> rfl

/-- Recovery never touches the completed-results map. -/
theorem handleWorkerError_completed (cfg : Config) (st : MasterState) (b : Batch)
    (et : ErrorType) (m : String) (f : Option String) :
    (handleWorkerError cfg st b et m f).completed = st.completed := by
  unfold handleWorkerError
  split
  · rfl
  · split <;> rfl

/-- Recovery never touches the worker id counter. -/
theorem handleWorkerError_workerIdCounter (cfg : Config) (st : MasterState)
    (b : Batch) (et : ErrorType) (m : String) (f : Option String) :
    (handleWorkerError cfg st b et m f).workerIdCounter = st.workerIdCounter := by
  unfold handleWorkerError
  split
  · rfl
  · split <;> rfl

/-- C3: Recovery policy case analysis of `handleWorkerError`.  A retryable
`oom` (retries below the bound, at least 2 files) bisects the batch and
appends both children at the tail of the pending queue; a `parse_error` with
an identified file records exactly that one `FailedFile` and re-queues
nothing; every other case records one `FailedFile` per file of the batch
with the classified reason. -/
theorem recovery_policy_cases (cfg : Config) (st : MasterState) (batch : Batch)
    (et : ErrorType) (msg : String) (file : Option String) :
    (et = .oom → batch.retries < cfg.maxRetries → 2 ≤ batch.files.length →
      handleWorkerError cfg st batch et msg file =
        { st with
          pending := st.pending ++ (splitBatch batch st.batchIdCounter).1,
          batchIdCounter := (splitBatch batch st.batchIdCounter).2 }) ∧
    (et = .parse_error → ∀ fname, file = some fname → fname ≠ "" →
      handleWorkerError cfg st batch et msg file =
        { st with failedFiles := st.failedFiles ++ [⟨fname, et, msg⟩] }) ∧
    (¬(et = .oom ∧ batch.retries < cfg.maxRetries ∧ 2 ≤ batch.files.length) →
     ¬(et = .parse_error ∧ optFilePresent file = true) →
      handleWorkerError cfg st batch et msg file =
        { st with
          failedFiles :=
            st.failedFiles ++ batch.files.map fun f => ⟨f, et, msg⟩ }) := by
  refine ⟨?_, ?_, ?_⟩
  · intro h1 h2 h3
    unfold handleWorkerError
    rw [if_pos ⟨h1, h2, h3⟩]
  · intro h1 fname hf hne
    subst h1
    subst hf
    unfold handleWorkerError
    rw [if_neg (by rintro ⟨h, -, -⟩; cases h)]
    rw [if_pos ⟨rfl, by simp [optFilePresent, hne]⟩]
    rfl
  · intro h1 h2
    unfold handleWorkerError
    rw [if_neg (by rintro ⟨ha, hb, hc⟩; exact h1 ⟨ha, hb, hc⟩)]
    rw [if_neg (by rintro ⟨ha, hb⟩; exact h2 ⟨ha, hb⟩)]

/-- C3 witness: a retryable `oom` on a 2-file batch bisects and re-queues. -/
theorem recovery_policy_witness :
    handleWorkerError CONFIG initState ⟨0, ["x", "y"], 0⟩ .oom "killed" none =
      { initState with
        pending :=
          initState.pending ++
            (splitBatch ⟨0, ["x", "y"], 0⟩ initState.batchIdCounter).1,
        batchIdCounter :=
          (splitBatch ⟨0, ["x", "y"], 0⟩ initState.batchIdCounter).2 } :=
  (recovery_policy_cases CONFIG initState ⟨0, ["x", "y"], 0⟩ .oom "killed"
    none).1 rfl (by decide) (by decide)

/-! ## Exit classification -/

/-- C8: Exit classification.  On a worker's process-exit event the
orchestrator removes the worker from the active map in every case; a
`SIGKILL` signal or exit code 137 routes the worker's batch to the classifier
as `oom`; otherwise a non-zero exit code with no recorded result routes it as
`unknown` with the `Exit code …` message; a worker whose result was already
recorded and which exits with code 0 triggers no classification at all. -/
theorem exit_classification (cfg : Config) (st : MasterState) (wid : Nat)
    (code : Option Int) (signal : Option ExitSignal) (w : WorkerState)
    (hw : st.active.lookup wid = some w) :
    ((handleExit cfg st wid code signal).active =
      st.active.filter fun p => p.1 ≠ wid) ∧
    (signal = some .SIGKILL ∨ code = some 137 →
      handleExit cfg st wid code signal =
        handleWorkerError cfg (removeActive st wid) w.batch .oom
          "Process killed - likely OOM" none) ∧
    (¬(signal = some .SIGKILL ∨ code = some 137) → code ≠ some 0 →
     st.completed.lookup wid = none →
      handleExit cfg st wid code signal =
        handleWorkerError cfg (removeActive st wid) w.batch .unknown
          (exitCodeMessage code) none) ∧
    ((st.completed.lookup wid).isSome = true → code = some 0 →
     signal ≠ some .SIGKILL →
      handleExit cfg st wid code signal = removeActive st wid) := by
  unfold handleExit
  simp only [hw]
  refine ⟨?_, ?_, ?_, ?_⟩
  · split
    · rw [handleWorkerError_active]
      rfl
    · split
      · rw [handleWorkerError_active]
        rfl
      · rfl
  · intro h
    rw [if_pos h]
  · intro h hc hcomp
    rw [if_neg h, if_pos ⟨hc, hcomp⟩]
  · intro hsome hc0 hsig
    subst hc0
    rw [if_neg (by rintro (h | h); exact hsig h; cases h)]
    rw [if_neg (by rintro ⟨hne, -⟩; exact hne rfl)]

/-- C8 witness: a worker with a recorded result exiting cleanly is removed
from the active map and triggers no classification. -/
theorem exit_classification_witness :
    handleExit CONFIG
        { initState with
          active := [(0, ⟨0, ⟨0, ["x"], 0⟩, []⟩)],
          completed := [(0, [⟨"x", 0, 0⟩])] }
        0 (some 0) none =
      removeActive
        { initState with
          active := [(0, ⟨0, ⟨0, ["x"], 0⟩, []⟩)],
          completed := [(0, [⟨"x", 0, 0⟩])] }
        0 :=
  (exit_classification CONFIG
      { initState with
        active := [(0, ⟨0, ⟨0, ["x"], 0⟩, []⟩)],
        completed := [(0, [⟨"x", 0, 0⟩])] }
      0 (some 0) none ⟨0, ⟨0, ["x"], 0⟩, []⟩ rfl).2.2.2 rfl rfl (by decide)

/-! ## Worker terminal behaviour -/

/-- Memory messages are never terminal. -/
theorem memory_msgs_filter (mems : List MemorySample) :
    (mems.map WMsg.memory).filter WMsg.isTerminal = [] := by
  induction mems with
  | nil => rfl
  | cons m l ih => simp [WMsg.isTerminal, ih]

/-- C2 (amended): the worker's lint flow sends exactly one terminal message
per task (one `result` or one `error`, never both), that message is the last
one sent, and the flow exits with status 0; the `uncaughtException` handler
also sends exactly one terminal `error` message but then exits with status 1
— so a non-zero worker exit status also arises from an uncaught exception,
not only from a forced kill by the OS. -/
theorem worker_terminal_amended :
    (∀ (mems : List MemorySample) (o : LintOutcome) (peak dur : Nat),
      terminalCount (runLintRun mems o peak dur) = 1 ∧
      (runLintRun mems o peak dur).exitCode = 0 ∧
      ∃ m, (runLintRun mems o peak dur).messages.getLast? = some m ∧
        m.isTerminal = true) ∧
    (∀ errMsg, terminalCount (uncaughtRun errMsg) = 1 ∧
      (uncaughtRun errMsg).exitCode = 1) := by
  constructor
  · intro mems o peak dur
    cases o with
    | ok results =>
        refine ⟨?_, rfl, ⟨WMsg.result results peak dur, ?_, rfl⟩⟩
        · simp [terminalCount, runLintRun, List.filter_append,
            memory_msgs_filter, WMsg.isTerminal]
        · simp [runLintRun, List.getLast?_concat]
    | threw errMsg =>
        refine ⟨?_, rfl,
          ⟨WMsg.error (workerClassify errMsg).1 errMsg (workerClassify errMsg).2,
            ?_, rfl⟩⟩
        · simp [terminalCount, runLintRun, List.filter_append,
            memory_msgs_filter, WMsg.isTerminal]
        · simp [runLintRun, List.getLast?_concat]
  · intro errMsg
    exact ⟨rfl, rfl⟩

/-- A successful spawn-gate check implies a free worker slot. -/
theorem canSpawn_length_lt {cfg : Config} {masterRss : Nat} {st : MasterState}
    (h : canSpawnWorker cfg masterRss st = true) :
    st.active.length < cfg.maxWorkers := by
  unfold canSpawnWorker at h
  by_contra hge
  push_neg at hge
  rw [if_pos hge] at h
  exact absurd h (by simp)

/-- The spawn loop keeps the active worker count within the cap: it rechecks
the gate before each pop. -/
theorem processLoop_active_le (cfg : Config) :
    ∀ (fuel : Nat) (env : List Nat) (st : MasterState),
      st.active.length ≤ cfg.maxWorkers →
      (processLoop cfg fuel env st).active.length ≤ cfg.maxWorkers := by
  intro fuel
  induction fuel with
  | zero => intro env st h; exact h
  | succ n ih =>
      intro env st h
      simp only [processLoop]
      split
      · exact h
      · rename_i b rest hp
        split
        · rename_i hcan
          apply ih
          have hlt : st.active.length < cfg.maxWorkers := canSpawn_length_lt hcan
          simp only [spawnWorker, List.length_cons]
          omega
        · exact h

/-- `handleExit` never grows the active worker map. -/
theorem handleExit_active_le (cfg : Config) (st : MasterState) (wid : Nat)
    (code : Option Int) (signal : Option ExitSignal) :
    (handleExit cfg st wid code signal).active.length ≤ st.active.length := by
  unfold handleExit
  split
  · exact le_rfl
  · split
    · rw [handleWorkerError_active]
      exact List.length_filter_le _ _
    · split
      · rw [handleWorkerError_active]
        exact List.length_filter_le _ _
      · exact List.length_filter_le _ _

/-- `handleSpawnErr` never grows the active worker map. -/
theorem handleSpawnErr_active_le (cfg : Config) (st : MasterState) (wid : Nat)
    (m : String) :
    (handleSpawnErr cfg st wid m).active.length ≤ st.active.length := by
  unfold handleSpawnErr
  split
  · exact le_rfl
  · rw [handleWorkerError_active]
    exact List.length_filter_le _ _

/-- Every reactor step preserves the worker cap. -/
theorem step_active_le (cfg : Config) (st : MasterState) (e : Event)
    (h : st.active.length ≤ cfg.maxWorkers) :
    (step cfg st e).active.length ≤ cfg.maxWorkers := by
  cases e with
  | spawnLoop env => exact processLoop_active_le cfg _ env st h
  | msgMemory wid s =>
      simp only [step, handleMemoryMsg, List.length_map]
      exact h
  | msgResult wid r p d =>
      simp only [step, handleResultMsg]
      split
      · exact h
      · exact h
  | msgError wid et m f =>
      simp only [step, handleErrorMsg]
      split
      · exact h
      · rw [handleWorkerError_active]
        exact h
  | procExit wid code signal env =>
      exact processLoop_active_le cfg _ env _
        (le_trans (handleExit_active_le cfg st wid code signal) h)
  | spawnErr wid m env =>
      exact processLoop_active_le cfg _ env _
        (le_trans (handleSpawnErr_active_le cfg st wid m) h)

/-- C7: Admission safety.  In every state reachable by the orchestrator's
event handlers — spawn-loop activations, inbound messages, exit and
spawn-failure notifications — the number of active workers never exceeds
`MAX_WORKERS`: the spawn loop rechecks `canSpawnWorker` before popping each
pending batch. -/
theorem admission_safety (cfg : Config) (files : List String) (tr : List Event) :
    (runTrace cfg files tr).active.length ≤ cfg.maxWorkers := by
  suffices h : ∀ (st : MasterState), st.active.length ≤ cfg.maxWorkers →
      (tr.foldl (step cfg) st).active.length ≤ cfg.maxWorkers by
    apply h
    simp [startState, initState]
  intro st
  induction tr generalizing st with
  | nil => intro h; exact h
  | cons e rest ih => intro h; exact ih _ (step_active_le cfg st e h)

/-- C2 counterexample: the `uncaughtException` handler is a worker code path
that sends a terminal message and then exits with a non-zero status, with no
forced kill by the OS involved. -/
theorem worker_terminal_cex :
    terminalCount (uncaughtRun "boom") = 1 ∧
    (uncaughtRun "boom").messages =
      [WMsg.error .unknown "boom" none] ∧
    (uncaughtRun "boom").exitCode ≠ 0 := by
  exact ⟨rfl, rfl, by decide⟩

/-! ## Association-list and membership helpers -/

/-- A successful lookup is a membership. -/
theorem lookup_mem {β : Type} {l : List (Nat × β)} {k : Nat} {v : β}
    (h : l.lookup k = some v) : (k, v) ∈ l := by
  induction l with
  | nil => simp [List.lookup] at h
  | cons p t ih =>
      obtain ⟨pk, pv⟩ := p
      rw [List.lookup] at h
      cases hbeq : k == pk with
      | true =>
          rw [hbeq] at h
          simp only [Option.some.injEq] at h
          have hk : k = pk := by simpa using hbeq
          subst hk
          subst h
          exact List.mem_cons_self _ _
      | false =>
          rw [hbeq] at h
          exact List.mem_cons_of_mem _ (ih h)

/-- Lookup misses keys that are absent. -/
theorem lookup_eq_none_of_not_mem {β : Type} {l : List (Nat × β)} {k : Nat}
    (h : k ∉ l.map Prod.fst) : l.lookup k = none := by
  induction l with
  | nil => rfl
  | cons p t ih =>
      obtain ⟨pk, pv⟩ := p
      simp only [List.map_cons, List.mem_cons, not_or] at h
      rw [List.lookup]
      have hbeq : (k == pk) = false := by
        simp only [beq_eq_false_iff_ne, ne_eq]
        exact fun he => h.1 he
      rw [hbeq]
      exact ih h.2

/-- A Nat list contains exactly its members. -/
theorem contains_iff_mem {l : List Nat} {a : Nat} :
    l.contains a = true ↔ a ∈ l := by
  induction l with
  | nil => simp
  | cons b t ih =>
      simp only [List.contains_cons, List.mem_cons, Bool.or_eq_true, beq_iff_eq]
      rw [ih]

/-- With duplicate-free keys, membership determines the value at a key. -/
theorem value_eq_of_mem_of_nodup {β : Type} {l : List (Nat × β)} {k : Nat}
    {v v' : β} (hnd : (l.map Prod.fst).Nodup)
    (h : (k, v) ∈ l) (h' : (k, v') ∈ l) : v = v' := by
  induction l with
  | nil => simp at h
  | cons p t ih =>
      obtain ⟨pk, pv⟩ := p
      simp only [List.map_cons, List.nodup_cons] at hnd
      rcases List.mem_cons.mp h with he | ht
      · injection he with hk hv
        rcases List.mem_cons.mp h' with he' | ht'
        · injection he' with hk' hv'
          rw [hv, hv']
        · exfalso
          apply hnd.1
          rw [← hk]
          exact List.mem_map_of_mem Prod.fst ht'
      · rcases List.mem_cons.mp h' with he' | ht'
        · injection he' with hk' hv'
          exfalso
          apply hnd.1
          rw [← hk']
          exact List.mem_map_of_mem Prod.fst ht
        · exact ih hnd.2 ht ht'


/-! ## Unresolved-files accounting -/

/-- Filtering out a key deletes a head entry carrying that key. -/
theorem filter_ne_cons_self {β : Type} (t : List (Nat × β)) (wid : Nat) (v : β) :
    (((wid, v) :: t).filter fun p => p.1 ≠ wid) = t.filter fun p => p.1 ≠ wid := by
  simp [List.filter_cons]

/-- Filtering out a key keeps a head entry carrying a different key. -/
theorem filter_ne_cons_other {β : Type} (t : List (Nat × β)) (wid pk : Nat)
    (v : β) (h : pk ≠ wid) :
    (((pk, v) :: t).filter fun p => p.1 ≠ wid) =
      (pk, v) :: t.filter fun p => p.1 ≠ wid := by
  simp [List.filter_cons, h]

/-- `unresFilesWith` only depends on the resolution predicate at the keys of
the list. -/
theorem unresFilesWith_congr :
    ∀ (active : List (Nat × WorkerState)) (r r' : Nat → Bool),
      (∀ p ∈ active, r p.1 = r' p.1) →
      unresFilesWith active r = unresFilesWith active r' := by
  intro active
  induction active with
  | nil => intro r r' h; rfl
  | cons p t ih =>
      intro r r' h
      have ht := ih r r' fun q hq => h q (List.mem_cons_of_mem _ hq)
      unfold unresFilesWith at ht ⊢
      simp only [List.filter_cons, h p (List.mem_cons_self p t)]
      split
      · simp only [List.map_cons, List.flatten_cons]
        rw [ht]
      · exact ht

/-- Prepending an unresolved worker prepends its batch files. -/
theorem unresFilesWith_cons_unres (active : List (Nat × WorkerState))
    (r : Nat → Bool) (wid : Nat) (w : WorkerState) (hr : r wid = false) :
    unresFilesWith ((wid, w) :: active) r =
      w.batch.files ++ unresFilesWith active r := by
  unfold unresFilesWith
  simp [List.filter_cons, hr]

/-- Prepending a resolved worker changes nothing. -/
theorem unresFilesWith_cons_res (active : List (Nat × WorkerState))
    (r : Nat → Bool) (wid : Nat) (w : WorkerState) (hr : r wid = true) :
    unresFilesWith ((wid, w) :: active) r = unresFilesWith active r := by
  unfold unresFilesWith
  simp [List.filter_cons, hr]

/-- Resolving one unresolved worker removes exactly its batch files: for any
predicate `r'` that agrees with `r` away from `wid` and resolves `wid`, the
unresolved files under `r` are a permutation of the worker's files followed
by the unresolved files under `r'`. -/
theorem unresFilesWith_mark :
    ∀ (active : List (Nat × WorkerState)) (r r' : Nat → Bool) (wid : Nat)
      (w : WorkerState),
      (active.map Prod.fst).Nodup → (wid, w) ∈ active → r wid = false →
      r' wid = true → (∀ k, k ≠ wid → r' k = r k) →
      List.Perm (unresFilesWith active r)
        (w.batch.files ++ unresFilesWith active r') := by
  intro active
  induction active with
  | nil => intro r r' wid w hnd hmem hr hr1 hro; simp at hmem
  | cons p t ih =>
      intro r r' wid w hnd hmem hr hr1 hro
      simp only [List.map_cons, List.nodup_cons] at hnd
      rcases List.mem_cons.mp hmem with he | ht
      · subst he
        rw [unresFilesWith_cons_unres t r wid w hr,
          unresFilesWith_cons_res t r' wid w hr1,
          unresFilesWith_congr t r' r fun q hq => hro q.1
            (fun hq1 => hnd.1 (List.mem_map.mpr ⟨q, hq, hq1⟩))]
      · have hp1 : p.1 ≠ wid := fun he1 =>
          hnd.1 (he1 ▸ List.mem_map_of_mem Prod.fst ht)
        have hih := ih r r' wid w hnd.2 ht hr hr1 hro
        have hpr : r' p.1 = r p.1 := hro p.1 hp1
        obtain ⟨pk, pv⟩ := p
        cases hkeep : r pk with
        | false =>
            rw [unresFilesWith_cons_unres t r pk pv hkeep,
              unresFilesWith_cons_unres t r' pk pv (by rw [hpr]; exact hkeep)]
            refine (hih.append_left pv.batch.files).trans ?_
            simpa [List.append_assoc] using
              List.perm_append_comm.append_right (unresFilesWith t r')
        | true =>
            rw [unresFilesWith_cons_res t r pk pv hkeep,
              unresFilesWith_cons_res t r' pk pv (by rw [hpr]; exact hkeep)]
            exact hih

/-- Deleting a resolved worker from the active list changes nothing. -/
theorem unresFilesWith_erase_res :
    ∀ (active : List (Nat × WorkerState)) (r : Nat → Bool) (wid : Nat),
      r wid = true →
      unresFilesWith (active.filter fun p => p.1 ≠ wid) r =
        unresFilesWith active r := by
  intro active
  induction active with
  | nil => intro r wid hr; rfl
  | cons p t ih =>
      intro r wid hr
      obtain ⟨pk, pv⟩ := p
      by_cases hk : pk = wid
      · subst hk
        rw [filter_ne_cons_self, ih r pk hr, unresFilesWith_cons_res t r pk pv hr]
      · rw [filter_ne_cons_other t wid pk pv hk]
        cases hkeep : r pk with
        | false =>
            rw [unresFilesWith_cons_unres _ r pk pv hkeep,
              unresFilesWith_cons_unres t r pk pv hkeep, ih r wid hr]
        | true =>
            rw [unresFilesWith_cons_res _ r pk pv hkeep,
              unresFilesWith_cons_res t r pk pv hkeep, ih r wid hr]

/-- Deleting an unresolved worker from the active list removes exactly its
batch files. -/
theorem unresFilesWith_erase_unres :
    ∀ (active : List (Nat × WorkerState)) (r : Nat → Bool) (wid : Nat)
      (w : WorkerState),
      (active.map Prod.fst).Nodup → (wid, w) ∈ active → r wid = false →
      List.Perm (unresFilesWith active r)
        (w.batch.files ++
          unresFilesWith (active.filter fun p => p.1 ≠ wid) r) := by
  intro active
  induction active with
  | nil => intro r wid w hnd hmem hr; simp at hmem
  | cons p t ih =>
      intro r wid w hnd hmem hr
      simp only [List.map_cons, List.nodup_cons] at hnd
      rcases List.mem_cons.mp hmem with he | ht
      · subst he
        rw [filter_ne_cons_self]
        rw [unresFilesWith_cons_unres t r wid w hr]
        have hfix : t.filter (fun p => p.1 ≠ wid) = t :=
          List.filter_eq_self.mpr fun q hq => by
            simp only [ne_eq, decide_eq_true_eq]
            exact fun hq1 => hnd.1 (List.mem_map.mpr ⟨q, hq, hq1⟩)
        rw [hfix]
      · have hp1 : p.1 ≠ wid := fun he1 =>
          hnd.1 (he1 ▸ List.mem_map_of_mem Prod.fst ht)
        have hih := ih r wid w hnd.2 ht hr
        obtain ⟨pk, pv⟩ := p
        rw [filter_ne_cons_other t wid pk pv hp1]
        cases hkeep : r pk with
        | false =>
            rw [unresFilesWith_cons_unres t r pk pv hkeep,
              unresFilesWith_cons_unres _ r pk pv hkeep]
            refine (hih.append_left pv.batch.files).trans ?_
            simpa [List.append_assoc] using
              List.perm_append_comm.append_right
                (unresFilesWith (t.filter fun p => p.1 ≠ wid) r)
        | true =>
            rw [unresFilesWith_cons_res t r pk pv hkeep,
              unresFilesWith_cons_res _ r pk pv hkeep]
            exact hih

/-! ## Content-invariant transformations -/

/-- The content invariant transports along permutations of the live files. -/
theorem ContentInv.permLive {files0 live live' C F : List String}
    (h : ContentInv files0 live C F) (hl : List.Perm live' live) :
    ContentInv files0 live' C F where
  cover f hf := by
    rcases h.cover f hf with hc | hc | hc
    · exact Or.inl (hl.mem_iff.mpr hc)
    · exact Or.inr (Or.inl hc)
    · exact Or.inr (Or.inr hc)
  nodupLive := hl.symm.nodup h.nodupLive
  liveC f hf := h.liveC f (hl.mem_iff.mp hf)
  liveF f hf := h.liveF f (hl.mem_iff.mp hf)
  compF := h.compF

/-- Disposing a block of live files into the failure sink. -/
theorem ContentInv.toFail {files0 live live' C F bf : List String}
    (h : ContentInv files0 live C F)
    (hsplit : List.Perm live (bf ++ live')) :
    ContentInv files0 live' C (F ++ bf) := by
  have hnodup : (bf ++ live').Nodup := hsplit.nodup h.nodupLive
  have hdisj : ∀ f ∈ live', f ∉ bf := by
    rw [List.nodup_append] at hnodup
    exact fun f hf hbf => hnodup.2.2 hbf hf
  have hbf_live : ∀ f ∈ bf, f ∈ live := fun f hf =>
    hsplit.mem_iff.mpr (List.mem_append_left _ hf)
  have hlive' : ∀ f ∈ live', f ∈ live := fun f hf =>
    hsplit.mem_iff.mpr (List.mem_append_right _ hf)
  refine ⟨?_, ?_, ?_, ?_, ?_⟩
  · intro f hf
    rcases h.cover f hf with hc | hc | hc
    · rcases List.mem_append.mp (hsplit.mem_iff.mp hc) with hb | hl
      · exact Or.inr (Or.inr (List.mem_append_right _ hb))
      · exact Or.inl hl
    · exact Or.inr (Or.inl hc)
    · exact Or.inr (Or.inr (List.mem_append_left _ hc))
  · exact (List.nodup_append.mp hnodup).2.1
  · exact fun f hf => h.liveC f (hlive' f hf)
  · intro f hf hmem
    rcases List.mem_append.mp hmem with hF | hb
    · exact h.liveF f (hlive' f hf) hF
    · exact hdisj f hf hb
  · intro f hf hmem
    rcases List.mem_append.mp hmem with hF | hb
    · exact h.compF f hf hF
    · exact h.liveC f (hbf_live f hb) hf

/-- Disposing a block of live files into the completed sink. -/
theorem ContentInv.toComp {files0 live live' C F bf : List String}
    (h : ContentInv files0 live C F)
    (hsplit : List.Perm live (bf ++ live')) :
    ContentInv files0 live' (bf ++ C) F := by
  have hnodup : (bf ++ live').Nodup := hsplit.nodup h.nodupLive
  have hdisj : ∀ f ∈ live', f ∉ bf := by
    rw [List.nodup_append] at hnodup
    exact fun f hf hbf => hnodup.2.2 hbf hf
  have hbf_live : ∀ f ∈ bf, f ∈ live := fun f hf =>
    hsplit.mem_iff.mpr (List.mem_append_left _ hf)
  have hlive' : ∀ f ∈ live', f ∈ live := fun f hf =>
    hsplit.mem_iff.mpr (List.mem_append_right _ hf)
  refine ⟨?_, ?_, ?_, ?_, ?_⟩
  · intro f hf
    rcases h.cover f hf with hc | hc | hc
    · rcases List.mem_append.mp (hsplit.mem_iff.mp hc) with hb | hl
      · exact Or.inr (Or.inl (List.mem_append_left _ hb))
      · exact Or.inl hl
    · exact Or.inr (Or.inl (List.mem_append_right _ hc))
    · exact Or.inr (Or.inr hc)
  · exact (List.nodup_append.mp hnodup).2.1
  · intro f hf hmem
    rcases List.mem_append.mp hmem with hb | hC
    · exact hdisj f hf hb
    · exact h.liveC f (hlive' f hf) hC
  · exact fun f hf => h.liveF f (hlive' f hf)
  · intro f hf
    rcases List.mem_append.mp hf with hb | hC
    · exact h.liveF f (hbf_live f hb)
    · exact h.compF f hC

/-- Re-recording already-failed files in the failure sink. -/
theorem ContentInv.refail {files0 live C F bf : List String}
    (h : ContentInv files0 live C F) (hsub : ∀ f ∈ bf, f ∈ F ∧ f ∉ C) :
    ContentInv files0 live C (F ++ bf) := by
  refine ⟨?_, h.nodupLive, h.liveC, ?_, ?_⟩
  · intro f hf
    rcases h.cover f hf with hc | hc | hc
    · exact Or.inl hc
    · exact Or.inr (Or.inl hc)
    · exact Or.inr (Or.inr (List.mem_append_left _ hc))
  · intro f hf hmem
    rcases List.mem_append.mp hmem with hF | hb
    · exact h.liveF f hf hF
    · exact h.liveF f hf (hsub f hb).1
  · intro f hf hmem
    rcases List.mem_append.mp hmem with hF | hb
    · exact h.compF f hf hF
    · exact (hsub f hb).2 hf

/-! ## Resolution and sink bookkeeping -/

/-- Three-block shuffle of appended lists. -/
theorem perm_middle_assoc (a b c : List String) :
    List.Perm (a ++ (b ++ c)) (b ++ (a ++ c)) := by
  simpa [List.append_assoc] using
    (@List.perm_append_comm _ a b).append_right c

/-- Absent elements yield a false `contains`. -/
theorem contains_eq_false_of_not_mem {l : List Nat} {a : Nat} (h : a ∉ l) :
    l.contains a = false := by
  cases hc : l.contains a with
  | false => rfl
  | true => exact absurd (contains_iff_mem.mp hc) h

/-- `resolvedW` only reads the completed map and the ghost error list. -/
theorem resolvedW_congr (st' st : MasterState) (err' err : List Nat)
    (hc : st'.completed = st.completed) (he : err' = err) :
    resolvedW (st', err') = resolvedW (st, err) := by
  funext k
  unfold resolvedW
  rw [hc, he]

/-- A worker id recorded in the ghost error list is resolved. -/
theorem resolvedW_true_of_mem_err {st : MasterState} {err : List Nat}
    {wid : Nat} (h : wid ∈ err) : resolvedW (st, err) wid = true := by
  unfold resolvedW
  rw [contains_iff_mem.mpr h]
  simp

/-- A worker id with recorded results is resolved. -/
theorem resolvedW_true_of_isSome {st : MasterState} {err : List Nat}
    {wid : Nat} (h : (st.completed.lookup wid).isSome = true) :
    resolvedW (st, err) wid = true := by
  unfold resolvedW
  rw [h]
  simp

/-- An unresolved worker id has no recorded results and no recorded error. -/
theorem resolvedW_false_parts {st : MasterState} {err : List Nat} {wid : Nat}
    (h : resolvedW (st, err) wid = false) :
    st.completed.lookup wid = none ∧ wid ∉ err := by
  unfold resolvedW at h
  rw [Bool.or_eq_false_iff] at h
  constructor
  · cases hc : st.completed.lookup wid with
    | none => rfl
    | some v => rw [hc] at h; simp at h
  · intro hm
    rw [contains_iff_mem.mpr hm] at h
    simp at h

/-- A fresh worker id (at the id counter) is unresolved. -/
theorem resolvedW_false_fresh {st : MasterState} {err : List Nat}
    (hcomp : ∀ k ∈ st.completed.map Prod.fst, k < st.workerIdCounter)
    (herr : ∀ k ∈ err, k < st.workerIdCounter) :
    resolvedW (st, err) st.workerIdCounter = false := by
  unfold resolvedW
  rw [lookup_eq_none_of_not_mem fun hm => lt_irrefl _ (hcomp _ hm),
    contains_eq_false_of_not_mem fun hm => lt_irrefl _ (herr _ hm)]
  rfl

/-- Consing a completed entry resolves exactly that worker id. -/
theorem resolvedW_completed_cons {st' st : MasterState} {err : List Nat}
    {wid : Nat} {results : List LintRes}
    (hc : st'.completed = (wid, results) :: st.completed) (k : Nat) :
    resolvedW (st', err) k = ((k == wid) || resolvedW (st, err) k) := by
  unfold resolvedW
  rw [hc, List.lookup]
  cases hbeq : k == wid with
  | true => simp [hbeq]
  | false => simp [hbeq]

/-- Consing a ghost error entry resolves exactly that worker id. -/
theorem resolvedW_err_cons {st' st : MasterState} {err : List Nat} {wid : Nat}
    (hc : st'.completed = st.completed) (k : Nat) :
    resolvedW (st', wid :: err) k = ((k == wid) || resolvedW (st, err) k) := by
  unfold resolvedW
  rw [hc, List.contains_cons]
  cases hbeq : k == wid with
  | true => simp [hbeq]
  | false => simp [hbeq]

/-- Failure paths distribute over appends. -/
theorem failedPathsOf_append (F G : List FailedFile) :
    failedPathsOf (F ++ G) = failedPathsOf F ++ failedPathsOf G :=
  List.map_append _ _ _

/-- The paths of a whole-batch failure record are the batch files. -/
theorem failedPathsOf_mk (files : List String) (et : ErrorType) (msg : String) :
    failedPathsOf (files.map fun f => ⟨f, et, msg⟩) = files := by
  unfold failedPathsOf
  rw [List.map_map]
  exact List.map_id _

/-- Completed files of a consed entry. -/
theorem completedFilesOf_cons (wid : Nat) (results : List LintRes)
    (completed : List (Nat × List LintRes)) :
    completedFilesOf ((wid, results) :: completed) =
      results.map LintRes.filePath ++ completedFilesOf completed := rfl

/-- The oom-retry branch of `handleWorkerError`. -/
theorem handleWorkerError_bisect (cfg : Config) (st : MasterState) (b : Batch)
    (msg : String) (file : Option String)
    (h1 : b.retries < cfg.maxRetries) (h2 : b.files.length > 1) :
    handleWorkerError cfg st b .oom msg file =
      { st with
        pending := st.pending ++ (splitBatch b st.batchIdCounter).1,
        batchIdCounter := (splitBatch b st.batchIdCounter).2 } := by
  unfold handleWorkerError
  rw [if_pos ⟨rfl, h1, h2⟩]

/-- The whole-batch-failure branch of `handleWorkerError`. -/
theorem handleWorkerError_fail_all (cfg : Config) (st : MasterState)
    (b : Batch) (et : ErrorType) (msg : String) (file : Option String)
    (h1 : ¬(et = .oom ∧ b.retries < cfg.maxRetries ∧ b.files.length > 1))
    (h2 : ¬(et = .parse_error ∧ optFilePresent file = true)) :
    handleWorkerError cfg st b et msg file =
      { st with
        failedFiles := st.failedFiles ++ b.files.map fun f => ⟨f, et, msg⟩ } := by
  unfold handleWorkerError
  rw [if_neg h1, if_neg h2]

/-- Unfolding `unresFilesWith` over a cons. -/
theorem unresFilesWith_cons (active : List (Nat × WorkerState))
    (r : Nat → Bool) (p : Nat × WorkerState) :
    unresFilesWith (p :: active) r =
      (if r p.1 then [] else p.2.batch.files) ++ unresFilesWith active r := by
  unfold unresFilesWith
  rw [List.filter_cons]
  cases hr : r p.1 <;> simp [hr]

/-- Mapping a key-preserving function preserves the key list. -/
theorem map_keys_eq (active : List (Nat × WorkerState))
    (g : Nat × WorkerState → Nat × WorkerState)
    (hg : ∀ p, (g p).1 = p.1) :
    (active.map g).map Prod.fst = active.map Prod.fst := by
  induction active with
  | nil => rfl
  | cons p t ih => simp only [List.map_cons, hg p, ih]

/-- Mapping a key- and batch-preserving function preserves the unresolved
files. -/
theorem unresFilesWith_map_eq (active : List (Nat × WorkerState))
    (r : Nat → Bool) (g : Nat × WorkerState → Nat × WorkerState)
    (hg : ∀ p, (g p).1 = p.1 ∧ (g p).2.batch = p.2.batch) :
    unresFilesWith (active.map g) r = unresFilesWith active r := by
  induction active with
  | nil => rfl
  | cons p t ih =>
      rw [List.map_cons, unresFilesWith_cons _ _ (g p), unresFilesWith_cons _ _ p,
        (hg p).1, (hg p).2, ih]

/-- The per-entry update of `handleMemoryMsg` preserves key and batch. -/
theorem memUpd_pres (wid : Nat) (s : MemorySample) (p : Nat × WorkerState) :
    ((if p.1 = wid then (p.1, { p.2 with samples := p.2.samples ++ [s] })
        else p).1 = p.1) ∧
    ((if p.1 = wid then (p.1, { p.2 with samples := p.2.samples ++ [s] })
        else p).2.batch = p.2.batch) := by
  by_cases h : p.1 = wid <;> simp [h]

/-- Entries of the memory-message update come from original entries with the
same key and batch. -/
theorem memUpd_exists {active : List (Nat × WorkerState)} {wid : Nat}
    {s : MemorySample} {q : Nat × WorkerState}
    (hq : q ∈ active.map fun p =>
      if p.1 = wid then (p.1, { p.2 with samples := p.2.samples ++ [s] })
      else p) :
    ∃ p ∈ active, q.1 = p.1 ∧ q.2.batch = p.2.batch := by
  rcases List.mem_map.mp hq with ⟨p, hp, heq⟩
  refine ⟨p, hp, ?_, ?_⟩
  · rw [← heq]
    exact (memUpd_pres wid s p).1
  · rw [← heq]
    exact (memUpd_pres wid s p).2

/-! ## Invariant preservation -/

/-- Constructor for `ConsInv` through explicit file-collection equations. -/
theorem consInv_mk (files0 : List String) (st : MasterState) (err : List Nat)
    (live C F : List String)
    (hlive : liveFiles (st, err) = live)
    (hC : completedFilesOf st.completed = C)
    (hF : failedPathsOf st.failedFiles = F)
    (content : ContentInv files0 live C F)
    (keysNodup : (st.active.map Prod.fst).Nodup)
    (activeLt : ∀ k ∈ st.active.map Prod.fst, k < st.workerIdCounter)
    (compLt : ∀ k ∈ st.completed.map Prod.fst, k < st.workerIdCounter)
    (errLt : ∀ k ∈ err, k < st.workerIdCounter)
    (errComp : ∀ k ∈ err, st.completed.lookup k = none)
    (errFail : ∀ p ∈ st.active, p.1 ∈ err →
      ∀ f ∈ p.2.batch.files, f ∈ F ∧ f ∉ C) :
    ConsInv files0 (st, err) := by
  subst hlive
  subst hC
  subst hF
  exact ⟨content, keysNodup, activeLt, compLt, errLt, errComp, errFail⟩

/-- A `memory` message preserves the conservation invariant. -/
theorem consInv_memory (files0 : List String) (st : MasterState)
    (err : List Nat) (wid : Nat) (s : MemorySample)
    (h : ConsInv files0 (st, err)) :
    ConsInv files0 (handleMemoryMsg st wid s, err) := by
  have hlive : liveFiles (handleMemoryMsg st wid s, err) = liveFiles (st, err) := by
    show (st.pending.map Batch.files).flatten ++
        unresFilesWith
          (st.active.map fun p =>
            if p.1 = wid then (p.1, { p.2 with samples := p.2.samples ++ [s] })
            else p)
          (resolvedW (handleMemoryMsg st wid s, err)) =
      liveFiles (st, err)
    rw [resolvedW_congr (handleMemoryMsg st wid s) st err err rfl rfl]
    rw [unresFilesWith_map_eq st.active (resolvedW (st, err)) _ (memUpd_pres wid s)]
    rfl
  refine consInv_mk files0 _ err _ _ _ hlive rfl rfl h.content ?_ ?_ ?_ ?_ ?_ ?_
  · show ((st.active.map fun p =>
        if p.1 = wid then (p.1, { p.2 with samples := p.2.samples ++ [s] })
        else p).map Prod.fst).Nodup
    rw [map_keys_eq st.active _ fun p => (memUpd_pres wid s p).1]
    exact h.keysNodup
  · intro k hk
    replace hk : k ∈ (st.active.map fun p =>
        if p.1 = wid then (p.1, { p.2 with samples := p.2.samples ++ [s] })
        else p).map Prod.fst := hk
    rw [map_keys_eq st.active _ fun p => (memUpd_pres wid s p).1] at hk
    exact h.activeLt k hk
  · exact h.compLt
  · exact h.errLt
  · exact h.errComp
  · intro q hq hqe f hf
    rcases memUpd_exists hq with ⟨p, hp, hk, hb⟩
    rw [hk] at hqe
    rw [hb] at hf
    exact h.errFail p hp hqe f hf

/-- Removing a resolved worker from the active map preserves the
invariant. -/
theorem consInv_removeActive_res (files0 : List String) (st : MasterState)
    (err : List Nat) (wid : Nat) (h : ConsInv files0 (st, err))
    (hres : resolvedW (st, err) wid = true) :
    ConsInv files0 (removeActive st wid, err) := by
  have hlive : liveFiles (removeActive st wid, err) = liveFiles (st, err) := by
    show (st.pending.map Batch.files).flatten ++
        unresFilesWith (st.active.filter fun p => p.1 ≠ wid)
          (resolvedW (removeActive st wid, err)) =
      liveFiles (st, err)
    rw [resolvedW_congr (removeActive st wid) st err err rfl rfl]
    rw [unresFilesWith_erase_res st.active (resolvedW (st, err)) wid hres]
    rfl
  refine consInv_mk files0 _ err _ _ _ hlive rfl rfl h.content ?_ ?_ ?_ ?_ ?_ ?_
  · show ((st.active.filter fun p => p.1 ≠ wid).map Prod.fst).Nodup
    exact List.Nodup.sublist (List.Sublist.map Prod.fst (List.filter_sublist _))
      h.keysNodup
  · intro k hk
    show k < st.workerIdCounter
    rcases List.mem_map.mp hk with ⟨p, hp, hpk⟩
    exact h.activeLt k (List.mem_map.mpr ⟨p, List.mem_of_mem_filter hp, hpk⟩)
  · exact h.compLt
  · exact h.errLt
  · exact h.errComp
  · intro q hq hqe f hf
    exact h.errFail q (List.mem_of_mem_filter hq) hqe f hf

/-- Classifying an unresolved worker's batch after removing it from the
active map preserves the invariant, for every error kind except a
`parse_error` with an identified file: the batch is either bisected back
into the pending queue or failed wholesale. -/
theorem consInv_dispose_unres (cfg : Config) (files0 : List String)
    (st : MasterState) (err : List Nat) (wid : Nat) (w : WorkerState)
    (et : ErrorType) (msg : String) (file : Option String)
    (h : ConsInv files0 (st, err))
    (hw : st.active.lookup wid = some w)
    (hunres : resolvedW (st, err) wid = false)
    (h2 : ¬(et = ErrorType.parse_error ∧ optFilePresent file = true)) :
    ConsInv files0
      (handleWorkerError cfg (removeActive st wid) w.batch et msg file, err) := by
  have hmem : (wid, w) ∈ st.active := lookup_mem hw
  have herase := unresFilesWith_erase_unres st.active (resolvedW (st, err)) wid w
    h.keysNodup hmem hunres
  have hsplit : List.Perm (liveFiles (st, err))
      (w.batch.files ++ liveFiles (removeActive st wid, err)) := by
    show List.Perm
      ((st.pending.map Batch.files).flatten ++
        unresFilesWith st.active (resolvedW (st, err)))
      (w.batch.files ++
        ((st.pending.map Batch.files).flatten ++
          unresFilesWith (st.active.filter fun p => p.1 ≠ wid)
            (resolvedW (removeActive st wid, err))))
    rw [resolvedW_congr (removeActive st wid) st err err rfl rfl]
    exact (herase.append_left _).trans (perm_middle_assoc _ _ _)
  have hkeys : ((st.active.filter fun p => p.1 ≠ wid).map Prod.fst).Nodup :=
    List.Nodup.sublist (List.Sublist.map Prod.fst (List.filter_sublist _))
      h.keysNodup
  have hkeysLt : ∀ k ∈ (st.active.filter fun p => p.1 ≠ wid).map Prod.fst,
      k < st.workerIdCounter := by
    intro k hk
    rcases List.mem_map.mp hk with ⟨p, hp, hpk⟩
    exact h.activeLt k (List.mem_map.mpr ⟨p, List.mem_of_mem_filter hp, hpk⟩)
  by_cases hbis : et = ErrorType.oom ∧ w.batch.retries < cfg.maxRetries ∧
      w.batch.files.length > 1
  · obtain ⟨het, hr1, hr2⟩ := hbis
    subst het
    rw [handleWorkerError_bisect cfg (removeActive st wid) w.batch msg file hr1 hr2]
    have hbf : (((splitBatch w.batch st.batchIdCounter).1.map Batch.files).flatten)
        = w.batch.files := by
      simp [splitBatch, List.take_append_drop]
    have hlive2 : liveFiles
        ({ removeActive st wid with
          pending :=
            (removeActive st wid).pending ++
              (splitBatch w.batch (removeActive st wid).batchIdCounter).1,
          batchIdCounter :=
            (splitBatch w.batch (removeActive st wid).batchIdCounter).2 }, err) =
        ((st.pending.map Batch.files).flatten ++ w.batch.files) ++
          unresFilesWith (st.active.filter fun p => p.1 ≠ wid)
            (resolvedW (st, err)) := by
      show ((st.pending ++ (splitBatch w.batch st.batchIdCounter).1).map
          Batch.files).flatten ++
        unresFilesWith (st.active.filter fun p => p.1 ≠ wid)
          (resolvedW (st, err)) = _
      rw [List.map_append, List.flatten_append, hbf]
    have hperm : List.Perm (liveFiles
        ({ removeActive st wid with
          pending :=
            (removeActive st wid).pending ++
              (splitBatch w.batch (removeActive st wid).batchIdCounter).1,
          batchIdCounter :=
            (splitBatch w.batch (removeActive st wid).batchIdCounter).2 }, err))
        (liveFiles (st, err)) := by
      rw [hlive2, List.append_assoc]
      exact List.Perm.append_left _ herase.symm
    refine ⟨h.content.permLive hperm, hkeys, hkeysLt, h.compLt, h.errLt,
      h.errComp, ?_⟩
    intro q hq hqe f hf
    exact h.errFail q (List.mem_of_mem_filter hq) hqe f hf
  · rw [handleWorkerError_fail_all cfg (removeActive st wid) w.batch et msg file
      hbis h2]
    refine consInv_mk files0 _ err (liveFiles (removeActive st wid, err))
      (completedFilesOf st.completed)
      (failedPathsOf st.failedFiles ++ w.batch.files) rfl rfl ?_
      (h.content.toFail hsplit) hkeys hkeysLt h.compLt h.errLt h.errComp ?_
    · show failedPathsOf
        (st.failedFiles ++ w.batch.files.map fun f => ⟨f, et, msg⟩) = _
      rw [failedPathsOf_append, failedPathsOf_mk]
    · intro q hq hqe f hf
      rcases h.errFail q (List.mem_of_mem_filter hq) hqe f hf with ⟨hF, hC⟩
      exact ⟨List.mem_append_left _ hF, hC⟩

/-- Re-classifying an error-resolved worker's batch (whose files are already
failed) after removing it from the active map preserves the invariant. -/
theorem consInv_dispose_res (cfg : Config) (files0 : List String)
    (st : MasterState) (err : List Nat) (wid : Nat) (w : WorkerState)
    (et : ErrorType) (msg : String) (file : Option String)
    (h : ConsInv files0 (st, err))
    (hw : st.active.lookup wid = some w)
    (hcontains : wid ∈ err)
    (h1 : ¬(et = ErrorType.oom ∧ w.batch.retries < cfg.maxRetries ∧
      w.batch.files.length > 1))
    (h2 : ¬(et = ErrorType.parse_error ∧ optFilePresent file = true)) :
    ConsInv files0
      (handleWorkerError cfg (removeActive st wid) w.batch et msg file, err) := by
  have hmem : (wid, w) ∈ st.active := lookup_mem hw
  have hres : resolvedW (st, err) wid = true := resolvedW_true_of_mem_err hcontains
  have hlive : liveFiles (removeActive st wid, err) = liveFiles (st, err) := by
    show (st.pending.map Batch.files).flatten ++
        unresFilesWith (st.active.filter fun p => p.1 ≠ wid)
          (resolvedW (removeActive st wid, err)) =
      liveFiles (st, err)
    rw [resolvedW_congr (removeActive st wid) st err err rfl rfl]
    rw [unresFilesWith_erase_res st.active (resolvedW (st, err)) wid hres]
    rfl
  have hsub : ∀ f ∈ w.batch.files,
      f ∈ failedPathsOf st.failedFiles ∧ f ∉ completedFilesOf st.completed :=
    h.errFail (wid, w) hmem hcontains
  rw [handleWorkerError_fail_all cfg (removeActive st wid) w.batch et msg file
    h1 h2]
  refine consInv_mk files0 _ err (liveFiles (st, err))
    (completedFilesOf st.completed)
    (failedPathsOf st.failedFiles ++ w.batch.files) ?_ rfl ?_
    (h.content.refail hsub) ?_ ?_ h.compLt h.errLt h.errComp ?_
  · exact hlive
  · show failedPathsOf
      (st.failedFiles ++ w.batch.files.map fun f => ⟨f, et, msg⟩) = _
    rw [failedPathsOf_append, failedPathsOf_mk]
  · show ((st.active.filter fun p => p.1 ≠ wid).map Prod.fst).Nodup
    exact List.Nodup.sublist (List.Sublist.map Prod.fst (List.filter_sublist _))
      h.keysNodup
  · intro k hk
    rcases List.mem_map.mp hk with ⟨p, hp, hpk⟩
    exact h.activeLt k (List.mem_map.mpr ⟨p, List.mem_of_mem_filter hp, hpk⟩)
  · intro q hq hqe f hf
    rcases h.errFail q (List.mem_of_mem_filter hq) hqe f hf with ⟨hF, hC⟩
    exact ⟨List.mem_append_left _ hF, hC⟩

/-- A well-behaved `result` message preserves the invariant: the sender's
batch files move from in-flight to completed. -/
theorem consInv_result (files0 : List String) (st : MasterState)
    (err : List Nat) (wid : Nat) (results : List LintRes) (peak dur : Nat)
    (w : WorkerState)
    (h : ConsInv files0 (st, err))
    (hw : st.active.lookup wid = some w)
    (hres : results.map LintRes.filePath = w.batch.files)
    (hunres : resolvedW (st, err) wid = false) :
    ConsInv files0 (handleResultMsg st wid results peak dur, err) := by
  have hmem : (wid, w) ∈ st.active := lookup_mem hw
  have hstep : handleResultMsg st wid results peak dur =
      { st with
        completed := (wid, results) :: st.completed,
        workerStats :=
          st.workerStats ++ [⟨wid, w.batch.files.length, peak, dur⟩] } := by
    unfold handleResultMsg
    rw [hw]
  rw [hstep]
  have hpoint : ∀ k,
      resolvedW
        ({ st with
          completed := (wid, results) :: st.completed,
          workerStats :=
            st.workerStats ++ [⟨wid, w.batch.files.length, peak, dur⟩] }, err) k =
      ((k == wid) || resolvedW (st, err) k) :=
    fun k => resolvedW_completed_cons rfl k
  have hmark := unresFilesWith_mark st.active (resolvedW (st, err))
    (resolvedW
      ({ st with
        completed := (wid, results) :: st.completed,
        workerStats :=
          st.workerStats ++ [⟨wid, w.batch.files.length, peak, dur⟩] }, err))
    wid w h.keysNodup hmem hunres
    (by rw [hpoint wid]; simp)
    (fun k hk => by
      rw [hpoint k, beq_eq_false_iff_ne.mpr hk]
      simp)
  have hsplit : List.Perm (liveFiles (st, err))
      (w.batch.files ++
        liveFiles
          ({ st with
            completed := (wid, results) :: st.completed,
            workerStats :=
              st.workerStats ++ [⟨wid, w.batch.files.length, peak, dur⟩] },
            err)) := by
    show List.Perm
      ((st.pending.map Batch.files).flatten ++
        unresFilesWith st.active (resolvedW (st, err)))
      (w.batch.files ++
        ((st.pending.map Batch.files).flatten ++
          unresFilesWith st.active
            (resolvedW
              ({ st with
                completed := (wid, results) :: st.completed,
                workerStats :=
                  st.workerStats ++ [⟨wid, w.batch.files.length, peak, dur⟩] },
                err))))
    exact (hmark.append_left _).trans (perm_middle_assoc _ _ _)
  have hbf_live : ∀ f ∈ w.batch.files, f ∈ liveFiles (st, err) := fun f hf =>
    hsplit.mem_iff.mpr (List.mem_append_left _ hf)
  refine consInv_mk files0 _ err _
    (w.batch.files ++ completedFilesOf st.completed)
    (failedPathsOf st.failedFiles) rfl ?_ rfl
    (h.content.toComp hsplit) h.keysNodup h.activeLt ?_ h.errLt ?_ ?_
  · show completedFilesOf ((wid, results) :: st.completed) = _
    rw [completedFilesOf_cons, hres]
  · intro k hk
    replace hk : k ∈ wid :: st.completed.map Prod.fst := hk
    rcases List.mem_cons.mp hk with rfl | hk
    · exact h.activeLt k (List.mem_map.mpr ⟨(k, w), hmem, rfl⟩)
    · exact h.compLt k hk
  · intro k hk
    have hkne : k ≠ wid := by
      rintro rfl
      exact (resolvedW_false_parts hunres).2 hk
    show List.lookup k ((wid, results) :: st.completed) = none
    rw [List.lookup]
    rw [beq_eq_false_iff_ne.mpr hkne]
    exact h.errComp k hk
  · intro q hq hqe f hf
    rcases h.errFail q hq hqe f hf with ⟨hF, hC⟩
    refine ⟨hF, ?_⟩
    intro hmemC
    rcases List.mem_append.mp hmemC with hb | hc
    · exact h.content.liveF f (hbf_live f hb) hF
    · exact hC hc

/-- A well-behaved `error` message (no `oom`, no identified parse-error file)
preserves the invariant: the sender's batch files move from in-flight to
failed, and the sender becomes error-resolved. -/
theorem consInv_error (cfg : Config) (files0 : List String) (st : MasterState)
    (err : List Nat) (wid : Nat) (et : ErrorType) (msg : String)
    (file : Option String) (w : WorkerState)
    (h : ConsInv files0 (st, err))
    (hw : st.active.lookup wid = some w)
    (hunres : resolvedW (st, err) wid = false)
    (hoom : et ≠ ErrorType.oom)
    (hpf : ¬(et = ErrorType.parse_error ∧ optFilePresent file = true)) :
    ConsInv files0 (handleErrorMsg cfg st wid et msg file, wid :: err) := by
  have hmem : (wid, w) ∈ st.active := lookup_mem hw
  have hstep : handleErrorMsg cfg st wid et msg file =
      { st with
        failedFiles :=
          st.failedFiles ++ w.batch.files.map fun f => ⟨f, et, msg⟩ } := by
    unfold handleErrorMsg
    rw [hw]
    exact handleWorkerError_fail_all cfg st w.batch et msg file
      (fun hc => hoom hc.1) hpf
  rw [hstep]
  have hpoint : ∀ k,
      resolvedW
        ({ st with
          failedFiles :=
            st.failedFiles ++ w.batch.files.map fun f => ⟨f, et, msg⟩ },
          wid :: err) k =
      ((k == wid) || resolvedW (st, err) k) :=
    fun k => resolvedW_err_cons rfl k
  have hmark := unresFilesWith_mark st.active (resolvedW (st, err))
    (resolvedW
      ({ st with
        failedFiles :=
          st.failedFiles ++ w.batch.files.map fun f => ⟨f, et, msg⟩ },
        wid :: err))
    wid w h.keysNodup hmem hunres
    (by rw [hpoint wid]; simp)
    (fun k hk => by
      rw [hpoint k, beq_eq_false_iff_ne.mpr hk]
      simp)
  have hsplit : List.Perm (liveFiles (st, err))
      (w.batch.files ++
        liveFiles
          ({ st with
            failedFiles :=
              st.failedFiles ++ w.batch.files.map fun f => ⟨f, et, msg⟩ },
            wid :: err)) := by
    show List.Perm
      ((st.pending.map Batch.files).flatten ++
        unresFilesWith st.active (resolvedW (st, err)))
      (w.batch.files ++
        ((st.pending.map Batch.files).flatten ++
          unresFilesWith st.active
            (resolvedW
              ({ st with
                failedFiles :=
                  st.failedFiles ++ w.batch.files.map fun f => ⟨f, et, msg⟩ },
                wid :: err))))
    exact (hmark.append_left _).trans (perm_middle_assoc _ _ _)
  have hbf_live : ∀ f ∈ w.batch.files, f ∈ liveFiles (st, err) := fun f hf =>
    hsplit.mem_iff.mpr (List.mem_append_left _ hf)
  refine consInv_mk files0 _ (wid :: err) _
    (completedFilesOf st.completed)
    (failedPathsOf st.failedFiles ++ w.batch.files) rfl rfl ?_
    (h.content.toFail hsplit) h.keysNodup h.activeLt h.compLt ?_ ?_ ?_
  · show failedPathsOf
      (st.failedFiles ++ w.batch.files.map fun f => ⟨f, et, msg⟩) = _
    rw [failedPathsOf_append, failedPathsOf_mk]
  · intro k hk
    rcases List.mem_cons.mp hk with rfl | hk
    · exact h.activeLt k (List.mem_map.mpr ⟨(k, w), hmem, rfl⟩)
    · exact h.errLt k hk
  · intro k hk
    rcases List.mem_cons.mp hk with rfl | hk
    · exact (resolvedW_false_parts hunres).1
    · exact h.errComp k hk
  · intro q hq hqe f hf
    obtain ⟨qk, qv⟩ := q
    rcases List.mem_cons.mp hqe with rfl | hke
    · have hv : qv = w := value_eq_of_mem_of_nodup h.keysNodup hq hmem
      subst hv
      refine ⟨List.mem_append_right _ hf, ?_⟩
      exact h.content.liveC f (hbf_live f hf)
    · rcases h.errFail (qk, qv) hq hke f hf with ⟨hF, hC⟩
      exact ⟨List.mem_append_left _ hF, hC⟩

/-- Spawning one pending batch as a fresh worker preserves the invariant:
the batch files move from the pending queue to an unresolved active
worker. -/
theorem consInv_spawnOne (files0 : List String) (st : MasterState)
    (err : List Nat) (b : Batch) (rest : List Batch)
    (hp : st.pending = b :: rest) (h : ConsInv files0 (st, err)) :
    ConsInv files0 (spawnWorker { st with pending := rest } b, err) := by
  have hfresh : resolvedW (st, err) st.workerIdCounter = false :=
    resolvedW_false_fresh h.compLt h.errLt
  have hnotin : st.workerIdCounter ∉ st.active.map Prod.fst := fun hm =>
    lt_irrefl _ (h.activeLt _ hm)
  have hlive : liveFiles (spawnWorker { st with pending := rest } b, err) =
      (rest.map Batch.files).flatten ++
        (b.files ++ unresFilesWith st.active (resolvedW (st, err))) := by
    show (rest.map Batch.files).flatten ++
        unresFilesWith
          ((st.workerIdCounter, ⟨st.workerIdCounter, b, []⟩) :: st.active)
          (resolvedW (st, err)) = _
    rw [unresFilesWith_cons_unres st.active (resolvedW (st, err))
      st.workerIdCounter ⟨st.workerIdCounter, b, []⟩ hfresh]
  have hl0 : liveFiles (st, err) =
      b.files ++
        ((rest.map Batch.files).flatten ++
          unresFilesWith st.active (resolvedW (st, err))) := by
    show (st.pending.map Batch.files).flatten ++
        unresFilesWith st.active (resolvedW (st, err)) = _
    rw [hp, List.map_cons, List.flatten_cons, List.append_assoc]
  have hperm : List.Perm
      (liveFiles (spawnWorker { st with pending := rest } b, err))
      (liveFiles (st, err)) := by
    rw [hlive, hl0]
    exact perm_middle_assoc _ _ _
  refine ⟨h.content.permLive hperm, ?_, ?_, ?_, ?_, h.errComp, ?_⟩
  · show (st.workerIdCounter :: st.active.map Prod.fst).Nodup
    exact List.nodup_cons.mpr ⟨hnotin, h.keysNodup⟩
  · intro k hk
    replace hk : k ∈ st.workerIdCounter :: st.active.map Prod.fst := hk
    show k < st.workerIdCounter + 1
    rcases List.mem_cons.mp hk with rfl | hk
    · exact Nat.lt_succ_self _
    · exact Nat.lt_succ_of_lt (h.activeLt k hk)
  · intro k hk
    show k < st.workerIdCounter + 1
    exact Nat.lt_succ_of_lt (h.compLt k hk)
  · intro k hk
    show k < st.workerIdCounter + 1
    exact Nat.lt_succ_of_lt (h.errLt k hk)
  · intro q hq hqe f hf
    replace hq : q ∈ (st.workerIdCounter, (⟨st.workerIdCounter, b, []⟩ :
        WorkerState)) :: st.active := hq
    rcases List.mem_cons.mp hq with rfl | hq
    · exact absurd (h.errLt _ hqe) (lt_irrefl _)
    · exact h.errFail q hq hqe f hf

/-- The spawn loop preserves the invariant. -/
theorem consInv_processLoop (cfg : Config) (files0 : List String) :
    ∀ (fuel : Nat) (env : List Nat) (st : MasterState) (err : List Nat),
      ConsInv files0 (st, err) →
      ConsInv files0 (processLoop cfg fuel env st, err) := by
  intro fuel
  induction fuel with
  | zero => intro env st err h; exact h
  | succ n ih =>
      intro env st err h
      simp only [processLoop]
      split
      · exact h
      · rename_i b rest hp
        split
        · exact ih _ _ err (consInv_spawnOne files0 st err b rest hp h)
        · exact h

/-- A well-behaved process-exit event preserves the invariant through the
exit classifier. -/
theorem consInv_handleExit (cfg : Config) (files0 : List String)
    (st : MasterState) (err : List Nat) (wid : Nat) (code : Option Int)
    (signal : Option ExitSignal) (env : List Nat)
    (h : ConsInv files0 (st, err))
    (hg : goodEventB (st, err) (.procExit wid code signal env) = true) :
    ConsInv files0 (handleExit cfg st wid code signal, err) := by
  simp only [goodEventB, Bool.and_eq_true] at hg
  obtain ⟨hsome, hcond⟩ := hg
  obtain ⟨w, hw⟩ := Option.isSome_iff_exists.mp hsome
  have hstep : handleExit cfg st wid code signal =
      (if signal = some ExitSignal.SIGKILL ∨ code = some 137 then
        handleWorkerError cfg (removeActive st wid) w.batch .oom
          "Process killed - likely OOM" none
      else if code ≠ some 0 ∧ st.completed.lookup wid = none then
        handleWorkerError cfg (removeActive st wid) w.batch .unknown
          (exitCodeMessage code) none
      else removeActive st wid) := by
    unfold handleExit
    rw [hw]
  rw [hstep]
  by_cases hcomp : (st.completed.lookup wid).isSome = true
  · rw [if_pos hcomp] at hcond
    simp only [Bool.and_eq_true, decide_eq_true_eq, Bool.not_eq_true',
      decide_eq_false_iff_not] at hcond
    obtain ⟨hc0, hsig⟩ := hcond
    rw [if_neg ?hnk, if_neg ?hnu]
    case hnk =>
      rintro (hs | hc)
      · exact hsig hs
      · rw [hc0] at hc
        simp at hc
    case hnu =>
      rintro ⟨hne, -⟩
      exact hne hc0
    exact consInv_removeActive_res files0 st err wid h
      (resolvedW_true_of_isSome hcomp)
  · rw [if_neg hcomp] at hcond
    have hcnone : st.completed.lookup wid = none := by
      cases hcl : st.completed.lookup wid with
      | none => rfl
      | some v => rw [hcl] at hcomp; simp at hcomp
    by_cases hcont : err.contains wid = true
    · rw [if_pos hcont] at hcond
      simp only [Bool.and_eq_true, Bool.not_eq_true',
        decide_eq_false_iff_not] at hcond
      obtain ⟨hsig, h137⟩ := hcond
      have hmemErr : wid ∈ err := contains_iff_mem.mp hcont
      rw [if_neg ?hnk2]
      case hnk2 =>
        rintro (hs | hc)
        · exact hsig hs
        · exact h137 hc
      by_cases hc0 : code = some 0
      · rw [if_neg (fun hcontra => hcontra.1 hc0)]
        exact consInv_removeActive_res files0 st err wid h
          (resolvedW_true_of_mem_err hmemErr)
      · rw [if_pos ⟨hc0, hcnone⟩]
        exact consInv_dispose_res cfg files0 st err wid w .unknown
          (exitCodeMessage code) none h hw hmemErr
          (by rintro ⟨hc, -⟩; cases hc) (by rintro ⟨hc, -⟩; cases hc)
    · rw [if_neg hcont] at hcond
      have hunres : resolvedW (st, err) wid = false := by
        unfold resolvedW
        rw [hcnone]
        rw [show err.contains wid = false from by
          cases hcv : err.contains wid
          · rfl
          · exact absurd hcv hcont]
        rfl
      simp only [Bool.or_eq_true, decide_eq_true_eq, Bool.not_eq_true',
        decide_eq_false_iff_not] at hcond
      by_cases hkill : signal = some ExitSignal.SIGKILL ∨ code = some 137
      · rw [if_pos hkill]
        exact consInv_dispose_unres cfg files0 st err wid w .oom
          "Process killed - likely OOM" none h hw hunres
          (by rintro ⟨hc, -⟩; cases hc)
      · rw [if_neg hkill]
        have hc0 : ¬code = some 0 := by
          rcases hcond with (hs | hc) | hc
          · exact absurd (Or.inl hs) hkill
          · exact absurd (Or.inr hc) hkill
          · exact hc
        rw [if_pos ⟨hc0, hcnone⟩]
        exact consInv_dispose_unres cfg files0 st err wid w .unknown
          (exitCodeMessage code) none h hw hunres
          (by rintro ⟨hc, -⟩; cases hc)

/-- A well-behaved spawn-failure event preserves the invariant. -/
theorem consInv_spawnFailure (cfg : Config) (files0 : List String)
    (st : MasterState) (err : List Nat) (wid : Nat) (m : String)
    (w : WorkerState)
    (h : ConsInv files0 (st, err))
    (hw : st.active.lookup wid = some w)
    (hunres : resolvedW (st, err) wid = false) :
    ConsInv files0 (handleSpawnErr cfg st wid m, err) := by
  unfold handleSpawnErr
  rw [hw]
  exact consInv_dispose_unres cfg files0 st err wid w .unknown m none h hw
    hunres (by rintro ⟨hc, -⟩; cases hc)

/-- Every well-behaved instrumented step preserves the invariant. -/
theorem consInv_gstep (cfg : Config) (files0 : List String)
    (g : MasterState × List Nat) (e : Event)
    (h : ConsInv files0 g) (hg : goodEventB g e = true) :
    ConsInv files0 (gstep cfg g e) := by
  obtain ⟨st, err⟩ := g
  cases e with
  | spawnLoop env =>
      exact consInv_processLoop cfg files0 _ env st err h
  | msgMemory wid s =>
      exact consInv_memory files0 st err wid s h
  | msgResult wid results peak dur =>
      show ConsInv files0 (handleResultMsg st wid results peak dur, err)
      simp only [goodEventB] at hg
      cases hw : st.active.lookup wid with
      | none => rw [hw] at hg; cases hg
      | some w =>
          rw [hw] at hg
          simp only [Bool.and_eq_true, decide_eq_true_eq,
            Bool.not_eq_true'] at hg
          exact consInv_result files0 st err wid results peak dur w h hw
            hg.1 hg.2
  | msgError wid et msg file =>
      show ConsInv files0 (handleErrorMsg cfg st wid et msg file, wid :: err)
      simp only [goodEventB, Bool.and_eq_true, Bool.not_eq_true'] at hg
      obtain ⟨⟨⟨hsome, hunres⟩, hoomB⟩, hpfB⟩ := hg
      obtain ⟨w, hw⟩ := Option.isSome_iff_exists.mp hsome
      have hoom : et ≠ ErrorType.oom := by
        intro hc
        rw [decide_eq_false_iff_not] at hoomB
        exact hoomB hc
      have hpf : ¬(et = ErrorType.parse_error ∧ optFilePresent file = true) := by
        rintro ⟨h1, h2⟩
        rw [h1, h2] at hpfB
        simp at hpfB
      exact consInv_error cfg files0 st err wid et msg file w h hw hunres
        hoom hpf
  | procExit wid code signal env =>
      exact consInv_processLoop cfg files0 _ env _ err
        (consInv_handleExit cfg files0 st err wid code signal env h hg)
  | spawnErr wid m env =>
      show ConsInv files0
        (processNextBatch cfg env (handleSpawnErr cfg st wid m), err)
      simp only [goodEventB, Bool.and_eq_true, Bool.not_eq_true'] at hg
      obtain ⟨hsome, hunres⟩ := hg
      obtain ⟨w, hw⟩ := Option.isSome_iff_exists.mp hsome
      exact consInv_processLoop cfg files0 _ env _ err
        (consInv_spawnFailure cfg files0 st err wid m w h hw hunres)

/-- The invariant holds at the start state: the initial batches cover the
input exactly, and all sinks are empty. -/
theorem consInv_start (cfg : Config) (files : List String)
    (hnd : files.Nodup) : ConsInv files (startState cfg files, []) := by
  have hlive : liveFiles (startState cfg files, []) = files := by
    show ((createBatchesGo
        (max 1 (natCeilDiv files.length cfg.initialBatchDivisor)) 0
        files.length files).map Batch.files).flatten ++
      unresFilesWith [] (resolvedW (startState cfg files, [])) = files
    rw [createBatchesGo_flatten _ (le_max_left _ _) files.length files 0 le_rfl]
    simp [unresFilesWith]
  refine consInv_mk files _ [] files [] [] hlive rfl rfl
    ⟨fun f hf => Or.inl hf, hnd,
      fun f _ hc => absurd hc (List.not_mem_nil f),
      fun f _ hc => absurd hc (List.not_mem_nil f),
      fun f hc => absurd hc (List.not_mem_nil f)⟩
    List.nodup_nil (fun k hk => absurd hk (List.not_mem_nil k))
    (fun k hk => absurd hk (List.not_mem_nil k))
    (fun k hk => absurd hk (List.not_mem_nil k))
    (fun k hk => absurd hk (List.not_mem_nil k))
    (fun q hq => absurd hq (List.not_mem_nil q))

/-- Folding a well-behaved trace preserves the invariant. -/
theorem consInv_foldl (cfg : Config) (files0 : List String) :
    ∀ (tr : List Event) (g : MasterState × List Nat),
      ConsInv files0 g → GoodRunB cfg g tr = true →
      ConsInv files0 (tr.foldl (gstep cfg) g) := by
  intro tr
  induction tr with
  | nil => intro g h _; exact h
  | cons e rest ih =>
      intro g h hgood
      simp only [GoodRunB, Bool.and_eq_true] at hgood
      exact ih _ (consInv_gstep cfg files0 g e h hgood.1) hgood.2

/-- The master-state component of the instrumented run is the plain run. -/
theorem gstep_fst (cfg : Config) (g : MasterState × List Nat) (e : Event) :
    (gstep cfg g e).1 = step cfg g.1 e := by
  cases e <;> rfl

/-- The instrumented fold projects onto the plain fold. -/
theorem grun_fst (cfg : Config) :
    ∀ (tr : List Event) (g : MasterState × List Nat),
      (tr.foldl (gstep cfg) g).1 = tr.foldl (step cfg) g.1 := by
  intro tr
  induction tr with
  | nil => intro g; rfl
  | cons e rest ih =>
      intro g
      rw [List.foldl_cons, List.foldl_cons, ih, gstep_fst]

/-- C1 (amended): Conservation for well-behaved runs.  For every
duplicate-free discovered input list and every well-behaved event trace —
messages come from registered workers, each worker sends at most one
terminal message, `result` messages list exactly the sender's batch files,
workers exit consistently with their terminal message (and never exit 0
silently), and no `parse_error` with an identified file occurs — once the
run is finalized (pending queue and active set both empty), every input file
appears in exactly one of the completed per-worker results or the summary
failures list: never both, never neither.  The exclusion of
identified-file parse errors is forced by `conservation_cex`. -/
theorem conservation_amended (cfg : Config) (files : List String)
    (tr : List Event)
    (hnd : files.Nodup)
    (hgood : GoodTraceB cfg files tr = true)
    (hpend : (runTrace cfg files tr).pending = [])
    (hact : (runTrace cfg files tr).active = []) :
    ∀ f ∈ files,
      (f ∈ completedFilesOf (runTrace cfg files tr).completed ∧
        f ∉ failedPathsOf (runTrace cfg files tr).failedFiles) ∨
      (f ∉ completedFilesOf (runTrace cfg files tr).completed ∧
        f ∈ failedPathsOf (runTrace cfg files tr).failedFiles) := by
  have hInv : ConsInv files (grun cfg files tr) :=
    consInv_foldl cfg files tr _ (consInv_start cfg files hnd) hgood
  have hfst : (grun cfg files tr).1 = runTrace cfg files tr :=
    grun_fst cfg tr _
  have hlive : liveFiles (grun cfg files tr) = [] := by
    unfold liveFiles pendFiles unresFilesWith
    rw [hfst, hpend, hact]
    rfl
  rw [← hfst]
  intro f hf
  rcases hInv.content.cover f hf with hc | hc | hc
  · rw [hlive] at hc
    exact absurd hc (List.not_mem_nil f)
  · exact Or.inl ⟨hc, hInv.content.compF f hc⟩
  · exact Or.inr ⟨fun hcc => hInv.content.compF f hcc hc, hc⟩

/-- C1 witness: `conservation_amended` applied to the concrete well-behaved
two-file run `happyTrace`, at file `a`. -/
theorem conservation_witness :
    ("a" ∈ completedFilesOf (runTrace CONFIG ["a", "b"] happyTrace).completed ∧
      "a" ∉ failedPathsOf (runTrace CONFIG ["a", "b"] happyTrace).failedFiles) ∨
    ("a" ∉ completedFilesOf (runTrace CONFIG ["a", "b"] happyTrace).completed ∧
      "a" ∈ failedPathsOf (runTrace CONFIG ["a", "b"] happyTrace).failedFiles) :=
  conservation_amended CONFIG ["a", "b"] happyTrace (by decide) (by decide)
    (by decide) (by decide) "a" (by decide)

/-- C1 counterexample: after the `cexTrace` run — every event of which is an
actual handler invocation, with worker 0 reporting a `parse_error` that
identifies file `a` of its 2-file batch `[a,b]` — the run is finalized
(pending and active both empty), yet the discovered input file `b` appears
neither in any completed per-worker results nor in the summary failures
list: it is silently dropped. -/
theorem conservation_cex :
    (runTrace CONFIG cexFiles cexTrace).pending = [] ∧
    (runTrace CONFIG cexFiles cexTrace).active = [] ∧
    "b" ∈ cexFiles ∧
    "b" ∉ completedFilesOf (runTrace CONFIG cexFiles cexTrace).completed ∧
    "b" ∉ failedPathsOf (runTrace CONFIG cexFiles cexTrace).failedFiles := by
  decide

end ESLintPoC
